import Mathlib

/-!
# InvestmentTracker — verification of the FIFO lot-accounting engine

A shallow embedding of the core of the repository:

* `src/engine_fifo.py` — FIFO trade matching (`apply_trades_fifo`), corporate
  actions (`apply_corporate_action`), the two-stream merge loop;
* `src/snapshots.py`  — `SnapshotCollector.consume_until` / `finalize`;
* `src/dividends.py`  — `compute_dividend_ledger`.

Modelling conventions:

* Dates (`pd.Timestamp`) are modelled as integers counting days; all dates in
  the engine's CSV inputs are day-granular, and the engine normalizes
  timestamps to day granularity before comparing them, so `normalize` is the
  identity in this model.
* Python `float` prices and amounts are modelled as exact rationals (`Rat`);
  `round(x, 0)` is modelled as round-half-even to an integer (`roundHalfEven`).
* Python `dict`s (insertion-ordered) are modelled as association lists with
  insertion-order semantics: lookup finds the first binding, assignment
  replaces in place or appends at the end (`dictSet`), and `setdefault`
  appends an empty binding at the end when the key is absent.
* String fields (`stock_symbol`, `side`, `symbol`, `action_type`) are modelled
  as already stripped / upper-cased: the source strips and upper-cases them
  while preparing the queues (engine_fifo.py lines 174-175, 104-105) and the
  later `.strip()` / `.upper()` calls at dispatch time are idempotent on such
  canonical values.
* In-place mutation of the caller-owned `inventories` dict is modelled by
  explicit state passing: every mutating operation returns the dict as it is
  after the call, *also when the Python code raises*, paired with an
  `Option EngineError` standing for the raised `ValueError` (if any).
-/

namespace InvestmentTracker

/-- `Lot` dataclass (engine_fifo.py lines 34-38). -/
structure Lot where
  qty : Int
  price : Rat
  date : Int
deriving DecidableEq

/-- One row of the prepared trade queue (engine_fifo.py lines 170-177). -/
structure Trade where
  transaction_date : Int
  stock_symbol : String
  side : String
  qty : Int
  price : Rat
deriving DecidableEq

/-- One row of the prepared corporate-action queue (engine_fifo.py lines 94-111). -/
structure Action where
  action_date : Int
  symbol : String
  action_type : String
  ratio_from : Int
  ratio_to : Int
deriving DecidableEq

/-- One element of `realized_pnl_records` (engine_fifo.py lines 251-259). -/
structure PnlRecord where
  transaction_date : Int
  stock_symbol : String
  sell_qty : Int
  sell_price : Rat
  buy_date : Int
  buy_price : Rat
  realized_pnl : Rat
deriving DecidableEq

/-- The caller-owned `inventories : Dict[str, Deque[Lot]]`, as an
insertion-ordered association list.  The head of each lot list is the head of
the deque (the oldest lot). -/
abbrev Inventories := List (String × List Lot)

/-- One snapshot entry: `symbol -> total_qty` (snapshots.py `_snapshot_inventory`). -/
abbrev Snap := List (String × Int)

/-- `SnapshotCollector.snapshots : Dict[pd.Timestamp, Dict[str, int]]`. -/
abbrev SnapDict := List (Int × Snap)

/-- Lookup in an insertion-ordered dict: the first binding of the key. -/
def dictGet? {κ α : Type} [DecidableEq κ] (k : κ) : List (κ × α) → Option α
  | [] => none
  | p :: t => if p.1 = k then some p.2 else dictGet? k t

/-- Assignment `m[k] = v` in an insertion-ordered dict: replace the value in
place if the key is present (keeping its position), else append at the end. -/
def dictSet {κ α : Type} [DecidableEq κ] (k : κ) (v : α) : List (κ × α) → List (κ × α)
  | [] => [(k, v)]
  | p :: t => if p.1 = k then (p.1, v) :: t else p :: dictSet k v t

/-- `m.setdefault(k, d)`: insert `(k, d)` at the end when `k` is absent. -/
def setdefaultDict {κ α : Type} [DecidableEq κ] (k : κ) (d : α) (m : List (κ × α)) :
    List (κ × α) :=
  if (dictGet? k m).isSome then m else m ++ [(k, d)]

/-- `inventories[symbol]` after a `setdefault`: the symbol's queue, `[]` when
the symbol is absent. -/
def getInv (inventories : Inventories) (symbol : String) : List Lot :=
  (dictGet? symbol inventories).getD []

/-- The three fatal `ValueError`s of the engine, by the names the spec gives
them, plus the unknown-trade-side error (engine_fifo.py line 262). -/
inductive EngineError where
  | invalidSplitRatio : EngineError
  | unsupportedAction : EngineError
  | insufficientInventory : EngineError
  | unknownSide : EngineError
deriving DecidableEq

/-- Python `round(x, 0)`: round to an integer, ties to the even integer. -/
def roundHalfEven (x : Rat) : Rat :=
  let f : Int := x.floor
  let frac : Rat := x - (f : Rat)
  if frac < 1/2 then (f : Rat)
  else if 1/2 < frac then ((f + 1 : Int) : Rat)
  else if f % 2 = 0 then (f : Rat) else ((f + 1 : Int) : Rat)

/-- The state of a SELL's matching loop when it leaves the `while`:
the symbol's deque, the `realized_pnl_records` list, and the pending
`ValueError` if the loop raised. -/
structure SellOutcome where
  inventory : List Lot
  records : List PnlRecord
  error : Option EngineError
deriving DecidableEq

/-- The SELL branch's matching loop (engine_fifo.py lines 231-259):
`while remaining_qty > 0`, pop the head lot, consume
`min(lot.qty, remaining)`, record one realized-pnl row, and push a positive
remainder back at the head.  Raises (error result) when the deque empties
first; the deque and the records list keep the mutations made so far. -/
def sellLoop (date : Int) (symbol : String) (price : Rat)
    (remaining : Int) (inventory : List Lot) (records : List PnlRecord) : SellOutcome :=
  if 0 < remaining then
    match inventory with
    | [] => ⟨[], records, some .insufficientInventory⟩
    | lot :: rest =>
      let sell_qty := min lot.qty remaining
      let remaining' := remaining - sell_qty
      let realized_pnl := roundHalfEven ((sell_qty : Rat) * (price - lot.price))
      let remaining_lot_qty := lot.qty - sell_qty
      let inventory' :=
        if 0 < remaining_lot_qty then
          ⟨remaining_lot_qty, lot.price, lot.date⟩ :: rest
        else rest
      let records' := records ++
        [⟨date, symbol, sell_qty, price, lot.date, lot.price, realized_pnl⟩]
      sellLoop date symbol price remaining' inventory' records'
  else ⟨inventory, records, none⟩
termination_by 2 * inventory.length + (if 0 < remaining then 1 else 0)
decreasing_by
  all_goals split_ifs <;> simp only [List.length_cons] <;> omega

/-- Total quantity of a symbol's queue (snapshots.py line 65). -/
def totalQty (lots : List Lot) : Int :=
  (lots.map Lot.qty).sum

/-- `SnapshotCollector._snapshot_inventory` (snapshots.py lines 57-68):
`symbol -> total_qty`, omitting symbols whose total is exactly zero, in the
iteration (= insertion) order of the `inventories` dict. -/
def snapshotInventory (inventories : Inventories) : Snap :=
  inventories.filterMap (fun p => if totalQty p.2 ≠ 0 then some (p.1, totalQty p.2) else none)

/-- `SnapshotCollector.consume_until` (snapshots.py lines 28-51), acting on the
collector's state `(remaining snapshot dates, snapshots dict)`.  The remaining
dates are the suffix of the constructor's sorted date list from the cursor
`_i` on.  Captures every pending date while it is `< cutoff` (all of them when
`cutoff` is `none`). -/
def consume_until (cutoff : Option Int) (inventories : Inventories) :
    List Int → SnapDict → List Int × SnapDict
  | [], snapshots => ([], snapshots)
  | snap_date :: ds, snapshots =>
    if cutoff.all (fun c => decide (snap_date < c)) then
      consume_until cutoff inventories ds
        (dictSet snap_date (snapshotInventory inventories) snapshots)
    else (snap_date :: ds, snapshots)

/-- `_peek_next_event_date` (engine_fifo.py lines 187-195): the earlier of the
two queue heads' dates, trades winning ties. -/
def peekNextEventDate (trade_q : List Trade) (action_q : List Action) : Option Int :=
  match trade_q, action_q with
  | [], [] => none
  | t :: _, [] => some t.transaction_date
  | [], a :: _ => some a.action_date
  | t :: _, a :: _ =>
    some (if t.transaction_date ≤ a.action_date then t.transaction_date else a.action_date)

/-- The merge loop's dispatch condition (engine_fifo.py line 211):
`ad is not None and (td is None or ad < td)` — the pending action runs only if
its date is strictly earlier than the next trade's date, or no trades remain. -/
def actionGoesFirst (trade_q : List Trade) (action_q : List Action) : Bool :=
  match action_q, trade_q with
  | [], _ => false
  | _ :: _, [] => true
  | a :: _, t :: _ => a.action_date < t.transaction_date

/-- The split adjustment of one lot (engine_fifo.py lines 133-135):
`lot.qty *= k; lot.price /= k`. -/
def splitLot (k : Int) (lot : Lot) : Lot :=
  ⟨lot.qty * k, lot.price / (k : Rat), lot.date⟩

/-- `apply_corporate_action` (engine_fifo.py lines 113-138).  Returns the
`inventories` dict as it is after the call together with the raised error, if
any: the `setdefault` on line 118 runs before validation, so it survives a
raise; the per-lot mutation runs only after validation succeeds. -/
def apply_corporate_action (action : Action) (inventories : Inventories) :
    Inventories × Option EngineError :=
  let symbol := action.symbol
  let inventories := setdefaultDict symbol [] inventories
  let inv := getInv inventories symbol
  if action.action_type = "SPLIT" then
    let rf := action.ratio_from
    let rt := action.ratio_to
    if rf ≤ 0 ∨ rt ≤ 0 then (inventories, some .invalidSplitRatio)
    else if rt % rf ≠ 0 then (inventories, some .invalidSplitRatio)
    else
      let k := rt / rf
      (dictSet symbol (inv.map (splitLot k)) inventories, none)
  else (inventories, some .unsupportedAction)

/-- The per-trade body of the merge loop (engine_fifo.py lines 217-262):
`setdefault`, then BUY appends a lot at the tail, SELL runs the matching
loop, and an unknown side raises.  Returns the `inventories` dict and the
records list as they are after the body (also at a raise). -/
def processTrade (tr : Trade) (inventories : Inventories) (records : List PnlRecord) :
    Inventories × List PnlRecord × Option EngineError :=
  let symbol := tr.stock_symbol
  let inventories := setdefaultDict symbol [] inventories
  let inventory := getInv inventories symbol
  if tr.side = "BUY" then
    (dictSet symbol (inventory ++ [⟨tr.qty, tr.price, tr.transaction_date⟩]) inventories,
     records, none)
  else if tr.side = "SELL" then
    let out := sellLoop tr.transaction_date symbol tr.price tr.qty inventory records
    (dictSet symbol out.inventory inventories, out.records, out.error)
  else (inventories, records, some .unknownSide)

/-- The merge loop's full state: the two event queues, the caller's
`inventories` dict, the `realized_pnl_records` list, and the snapshot
collector's state. -/
structure EngineState where
  trade_q : List Trade
  action_q : List Action
  inventories : Inventories
  records : List PnlRecord
  snap_dates : List Int
  snapshots : SnapDict
deriving DecidableEq

/-- The merge loop of `apply_trades_fifo` (engine_fifo.py lines 199-262):
while either queue is non-empty, first let the snapshot collector capture
every pending date strictly before the next event's date, then dispatch the
pending action if `actionGoesFirst`, otherwise the pending trade.  A raise
inside the body stops the loop, returning the state at the raise. -/
def runLoop : EngineState → EngineState × Option EngineError
  | ⟨trade_q, action_q, inventories, records, snap_dates, snapshots⟩ =>
    if trade_q = [] ∧ action_q = [] then
      (⟨trade_q, action_q, inventories, records, snap_dates, snapshots⟩, none)
    else
      let du := consume_until (peekNextEventDate trade_q action_q)
        inventories snap_dates snapshots
      if actionGoesFirst trade_q action_q then
        match action_q with
        | [] => -- unreachable: actionGoesFirst requires a pending action
          (⟨trade_q, action_q, inventories, records, snap_dates, snapshots⟩, none)
        | act :: acts =>
          let r := apply_corporate_action act inventories
          match r.2 with
          | some e => (⟨trade_q, acts, r.1, records, du.1, du.2⟩, some e)
          | none => runLoop ⟨trade_q, acts, r.1, records, du.1, du.2⟩
      else
        match trade_q with
        | [] => -- unreachable: some queue is non-empty and no action goes first
          (⟨trade_q, action_q, inventories, records, snap_dates, snapshots⟩, none)
        | tr :: trs =>
          let r := processTrade tr inventories records
          match r.2.2 with
          | some e => (⟨trs, action_q, r.1, r.2.1, du.1, du.2⟩, some e)
          | none => runLoop ⟨trs, action_q, r.1, r.2.1, du.1, du.2⟩
termination_by s => s.trade_q.length + s.action_q.length
decreasing_by
  all_goals simp only [List.length_cons] <;> omega

/-- What `apply_trades_fifo` leaves behind.  On `error = some _` the Python
function raises: the caller then observes the mutated `inventories` dict and
the exception only; `records`, `snap_dates` and `snapshots` model the local
state at the raise. -/
structure EngineOut where
  inventories : Inventories
  records : List PnlRecord
  snap_dates : List Int
  snapshots : SnapDict
  error : Option EngineError
deriving DecidableEq

/-- `apply_trades_fifo` (engine_fifo.py lines 161-270) on prepared queues:
run the merge loop, then (when nothing raised) let the collector capture the
remaining snapshot dates (`finalize`, engine_fifo.py lines 266-268).
The queues are the sorted, cleaned rows the preparation steps produce
(lines 170-183); the snapshot dates are the collector's day-normalized sorted
constructor argument (snapshots.py lines 17-24). -/
def apply_trades_fifo (trade_q : List Trade) (action_q : List Action)
    (inventories : Inventories) (snapshot_dates : List Int) : EngineOut :=
  let r := runLoop {
    trade_q := trade_q, action_q := action_q,
    inventories := inventories, records := [],
    snap_dates := snapshot_dates, snapshots := [] }
  match r.2 with
  | some e => ⟨r.1.inventories, r.1.records, r.1.snap_dates, r.1.snapshots, some e⟩
  | none =>
    let fin := consume_until none r.1.inventories r.1.snap_dates r.1.snapshots
    ⟨r.1.inventories, r.1.records, fin.1, fin.2, none⟩

/-- One row of the year's dividend table (dividends.py): `symbol`,
day-normalized `ex_dividend_date`, per-share amount `dividends`. -/
structure DividendRecord where
  symbol : String
  ex_dividend_date : Int
  dividends : Rat
deriving DecidableEq

/-- One row of the dividend ledger (dividends.py lines 85-92). -/
structure LedgerEntry where
  symbol : String
  ex_dividend_date : Int
  snapshot_date : Int
  eligible_qty : Int
  dividends_per_share : Rat
  dividend_amount : Rat
deriving DecidableEq

/-- The row loop of `compute_dividend_ledger` (dividends.py lines 75-92),
carrying the `records` accumulator it appends to. -/
def ledgerLoop (snapshots : SnapDict) :
    List DividendRecord → List LedgerEntry → List LedgerEntry
  | [], records => records
  | r :: rest, records =>
    let snap_date := r.ex_dividend_date - 1
    let snap := (dictGet? snap_date snapshots).getD []
    let eligible_qty := (dictGet? r.symbol snap).getD 0
    let amount := (eligible_qty : Rat) * r.dividends
    ledgerLoop snapshots rest
      (records ++ [⟨r.symbol, r.ex_dividend_date, snap_date, eligible_qty, r.dividends, amount⟩])

/-- `compute_dividend_ledger` (dividends.py lines 52-94) on the year's rows
(already normalized and filtered by `prepare_dividends_for_year`). -/
def compute_dividend_ledger (div_rows : List DividendRecord) (snapshots : SnapDict) :
    List LedgerEntry :=
  ledgerLoop snapshots div_rows []

/-! ## Spec-side definitions

The following definitions are written from the specification's words, not
from the source; they are compared against the source-translated functions
above. -/

/-- Spec-side FIFO consumption: the lots a SELL of `qty` crosses, oldest
first, each with the quantity taken from it (`§4.1`: pop the head lot,
consume `min(lot.qty, remaining)`, one disposal per lot crossed). -/
def fifoCrossed (qty : Int) : List Lot → List (Lot × Int)
  | [] => []
  | lot :: rest =>
    if qty ≤ 0 then []
    else if qty < lot.qty then [(lot, qty)]
    else (lot, lot.qty) :: fifoCrossed (qty - lot.qty) rest

/-- Spec-side FIFO remainder: the queue a SELL of `qty` leaves behind — a
partially consumed last lot is requeued at the head with its original
`unit_cost` and `acquisition_date` (`§4.1`). -/
def fifoRemaining (qty : Int) : List Lot → List Lot
  | [] => []
  | lot :: rest =>
    if qty ≤ 0 then lot :: rest
    else if qty < lot.qty then ⟨lot.qty - qty, lot.price, lot.date⟩ :: rest
    else fifoRemaining (qty - lot.qty) rest

/-- Spec-side: the inventory after processing exactly the events dated `≤ d`
(for date-sorted queues: the state immediately before the first event dated
strictly after `d`).  Snapshot collection is irrelevant here, so it runs with
no snapshot dates. -/
def invAfterUpTo (d : Int) (trade_q : List Trade) (action_q : List Action)
    (inventories : Inventories) : Inventories :=
  (runLoop {
    trade_q := trade_q.filter (fun t => t.transaction_date ≤ d),
    action_q := action_q.filter (fun a => a.action_date ≤ d),
    inventories := inventories, records := [],
    snap_dates := [], snapshots := [] }).1.inventories

/-- Spec-side, following the claim's words: the inventory immediately before
the first event dated on or after `d`, i.e. after exactly the events dated
strictly before `d`. -/
def invBeforeDate (d : Int) (trade_q : List Trade) (action_q : List Action)
    (inventories : Inventories) : Inventories :=
  (runLoop {
    trade_q := trade_q.filter (fun t => t.transaction_date < d),
    action_q := action_q.filter (fun a => a.action_date < d),
    inventories := inventories, records := [],
    snap_dates := [], snapshots := [] }).1.inventories

/-- The disposal record a crossed lot contributes (`§4.1`): the consumed
quantity, the sell price, the lot's own acquisition date and unit cost, and
the rounded realized gain `consumed × (sell_price − unit_cost)`. -/
def crossedRecord (date : Int) (symbol : String) (price : Rat) (lc : Lot × Int) : PnlRecord :=
  ⟨date, symbol, lc.2, price, lc.1.date, lc.1.price,
   roundHalfEven ((lc.2 : Rat) * (price - lc.1.price))⟩

/-- A disposal record's gain is `consumed_qty × (sell_price − unit_cost)`
under the engine's single rounding policy (round-half-even to a whole unit). -/
def pnlWellRounded (r : PnlRecord) : Prop :=
  r.realized_pnl = roundHalfEven ((r.sell_qty : Rat) * (r.sell_price - r.buy_price))

/-! ## Preconditions -/

/-- Every lot of a queue has strictly positive quantity. -/
def lotsPositive (lots : List Lot) : Prop := ∀ lot ∈ lots, 0 < lot.qty

/-- Every lot of every queue has strictly positive quantity. -/
def invsPositive (inventories : Inventories) : Prop := ∀ p ∈ inventories, lotsPositive p.2

/-- Every trade has strictly positive quantity. -/
def tradesPositive (trade_q : List Trade) : Prop := ∀ t ∈ trade_q, 0 < t.qty

/-- The trade queue is ascending by date (the preparation sorts it,
engine_fifo.py line 176). -/
def tradesSortedByDate (trade_q : List Trade) : Prop :=
  trade_q.Pairwise (fun a b => a.transaction_date ≤ b.transaction_date)

/-- The action queue is ascending by date (prepare_action_queue sorts it,
engine_fifo.py line 109). -/
def actionsSortedByDate (action_q : List Action) : Prop :=
  action_q.Pairwise (fun a b => a.action_date ≤ b.action_date)

/-- The requested snapshot dates are strictly ascending (deduplicated and
sorted, dividends.py lines 45-49 and snapshots.py lines 21-23). -/
def snapDatesSorted (dates : List Int) : Prop := dates.Pairwise (· < ·)

/-! ## Dictionary lemmas -/

theorem dictGet?_dictSet_self {κ α : Type} [DecidableEq κ] (k : κ) (v : α) (m : List (κ × α)) :
    dictGet? k (dictSet k v m) = some v := by
  induction m with
  | nil => simp [dictGet?, dictSet]
  | cons p t ih =>
    by_cases h : p.1 = k
    · simp [dictGet?, dictSet, h]
    · simp [dictGet?, dictSet, h, ih]

theorem dictGet?_dictSet_ne {κ α : Type} [DecidableEq κ] {k k' : κ} (v : α)
    (m : List (κ × α)) (h : k' ≠ k) : dictGet? k' (dictSet k v m) = dictGet? k' m := by
  have h' : k ≠ k' := Ne.symm h
  induction m with
  | nil => simp [dictGet?, dictSet, h']
  | cons p t ih =>
    by_cases hp : p.1 = k
    · simp [dictGet?, dictSet, hp, h']
    · by_cases hp' : p.1 = k'
      · simp [dictGet?, dictSet, hp, hp', h]
      · simp [dictGet?, dictSet, hp, hp', ih]

theorem dictSet_eq_append {κ α : Type} [DecidableEq κ] {k : κ} (v : α)
    {m : List (κ × α)} (h : dictGet? k m = none) : dictSet k v m = m ++ [(k, v)] := by
  induction m with
  | nil => simp [dictSet]
  | cons p t ih =>
    rw [dictGet?] at h
    by_cases hp : p.1 = k
    · simp [hp] at h
    · simp [hp] at h
      simp [dictSet, hp, ih h]

theorem dictGet?_eq_none_iff {κ α : Type} [DecidableEq κ] (k : κ) (m : List (κ × α)) :
    dictGet? k m = none ↔ k ∉ m.map Prod.fst := by
  induction m with
  | nil => simp [dictGet?]
  | cons p t ih =>
    by_cases hp : p.1 = k
    · simp [dictGet?, hp]
    · simp [dictGet?, hp, ih, Ne.symm hp]

theorem dictGet?_append_of_none {κ α : Type} [DecidableEq κ] {k : κ}
    {m : List (κ × α)} (n : List (κ × α)) (h : dictGet? k m = none) :
    dictGet? k (m ++ n) = dictGet? k n := by
  induction m with
  | nil => simp
  | cons p t ih =>
    rw [dictGet?] at h
    by_cases hp : p.1 = k
    · simp [hp] at h
    · simp [hp] at h
      simp [dictGet?, hp, ih h]

theorem dictGet?_append_of_some {κ α : Type} [DecidableEq κ] {k : κ} {v : α}
    {m : List (κ × α)} (n : List (κ × α)) (h : dictGet? k m = some v) :
    dictGet? k (m ++ n) = some v := by
  induction m with
  | nil => simp [dictGet?] at h
  | cons p t ih =>
    rw [dictGet?] at h
    by_cases hp : p.1 = k
    · simp [hp] at h
      simp [dictGet?, hp, h]
    · simp [hp] at h
      simp [dictGet?, hp, ih h]

theorem dictGet?_mem {κ α : Type} [DecidableEq κ] {k : κ} {v : α} {m : List (κ × α)}
    (h : dictGet? k m = some v) : (k, v) ∈ m := by
  induction m with
  | nil => simp [dictGet?] at h
  | cons p t ih =>
    rw [dictGet?] at h
    by_cases hp : p.1 = k
    · simp [hp] at h
      have hpv : (k, v) = p := by rw [← hp, ← h]
      rw [hpv]
      exact List.mem_cons_self p t
    · simp [hp] at h
      exact List.mem_cons_of_mem _ (ih h)

theorem getInv_setdefault (m : Inventories) (sym s : String) :
    getInv (setdefaultDict sym [] m) s = getInv m s := by
  unfold setdefaultDict
  split
  · rfl
  · rename_i hne
    have hnone : dictGet? sym m = none := by
      cases h : dictGet? sym m with
      | none => rfl
      | some v => rw [h] at hne; simp at hne
    unfold getInv
    by_cases hs : s = sym
    · subst hs
      rw [dictGet?_append_of_none _ hnone, hnone]
      simp [dictGet?]
    · cases h : dictGet? s m with
      | none => rw [dictGet?_append_of_none _ h]; simp [dictGet?, Ne.symm hs]
      | some v => rw [dictGet?_append_of_some _ h]

/-! ## sellLoop step equations -/

theorem sellLoop_stop {date : Int} {symbol : String} {price : Rat} {remaining : Int}
    {inventory : List Lot} {records : List PnlRecord} (h : ¬ 0 < remaining) :
    sellLoop date symbol price remaining inventory records = ⟨inventory, records, none⟩ := by
  rw [sellLoop.eq_def]
  simp [h]

theorem sellLoop_empty {date : Int} {symbol : String} {price : Rat} {remaining : Int}
    {records : List PnlRecord} (h : 0 < remaining) :
    sellLoop date symbol price remaining [] records =
      ⟨[], records, some .insufficientInventory⟩ := by
  rw [sellLoop.eq_def]
  simp [h]

theorem sellLoop_cons {date : Int} {symbol : String} {price : Rat} {remaining : Int}
    {lot : Lot} {rest : List Lot} {records : List PnlRecord} (h : 0 < remaining) :
    sellLoop date symbol price remaining (lot :: rest) records =
      sellLoop date symbol price (remaining - min lot.qty remaining)
        (if 0 < lot.qty - min lot.qty remaining then
          ⟨lot.qty - min lot.qty remaining, lot.price, lot.date⟩ :: rest
         else rest)
        (records ++ [⟨date, symbol, min lot.qty remaining, price, lot.date, lot.price,
          roundHalfEven (((min lot.qty remaining : Int) : Rat) * (price - lot.price))⟩]) := by
  conv_lhs => rw [sellLoop.eq_def]
  simp [h]

/-! ## sellLoop characterizations -/

theorem totalQty_nil : totalQty [] = 0 := rfl

theorem totalQty_cons (lot : Lot) (rest : List Lot) :
    totalQty (lot :: rest) = lot.qty + totalQty rest := by
  simp [totalQty]

theorem totalQty_nonneg {lots : List Lot} (hpos : lotsPositive lots) : 0 ≤ totalQty lots := by
  induction lots with
  | nil => simp [totalQty]
  | cons lot rest ih =>
    have h1 : 0 < lot.qty := hpos lot (List.mem_cons_self lot rest)
    have h2 : lotsPositive rest := fun l hl => hpos l (List.mem_cons_of_mem _ hl)
    rw [totalQty_cons]
    have := ih h2
    omega

/-- The records argument is a pure accumulator: the loop's result only
appends to it, and nothing else depends on it. -/
theorem sellLoop_acc (date : Int) (symbol : String) (price : Rat)
    (remaining : Int) (inventory : List Lot) (records : List PnlRecord) :
    sellLoop date symbol price remaining inventory records =
      ⟨(sellLoop date symbol price remaining inventory []).inventory,
       records ++ (sellLoop date symbol price remaining inventory []).records,
       (sellLoop date symbol price remaining inventory []).error⟩ := by
  induction inventory generalizing remaining records with
  | nil =>
    by_cases h : 0 < remaining
    · rw [sellLoop_empty h, sellLoop_empty h]
      simp
    · rw [sellLoop_stop h, sellLoop_stop h]
      simp
  | cons lot rest ih =>
    by_cases h : 0 < remaining
    · rw [sellLoop_cons h, sellLoop_cons h]
      by_cases hq : 0 < lot.qty - min lot.qty remaining
      · have h0 : ¬ 0 < remaining - min lot.qty remaining := by omega
        rw [if_pos hq, sellLoop_stop h0, sellLoop_stop h0]
        simp
      · rw [if_neg hq]
        conv_lhs => rw [ih]
        conv_rhs => rw [ih]
        simp
    · rw [sellLoop_stop h, sellLoop_stop h]
      simp

/-- With positive lots and sufficient inventory the matching loop succeeds,
consuming lots strictly in queue order: the left inventory is the spec-side
FIFO remainder and the emitted records are exactly one `crossedRecord` per
crossed lot, in consumption order. -/
theorem sellLoop_fifo (date : Int) (symbol : String) (price : Rat)
    {qty : Int} {inventory : List Lot}
    (hpos : lotsPositive inventory) (hsuff : qty ≤ totalQty inventory) :
    sellLoop date symbol price qty inventory [] =
      ⟨fifoRemaining qty inventory,
       (fifoCrossed qty inventory).map (crossedRecord date symbol price), none⟩ := by
  revert hpos hsuff
  induction inventory generalizing qty with
  | nil =>
    intro hpos hsuff
    rw [totalQty_nil] at hsuff
    have h : ¬ 0 < qty := by omega
    rw [sellLoop_stop h]
    simp [fifoRemaining, fifoCrossed]
  | cons lot rest ih =>
    intro hpos hsuff
    have hl : 0 < lot.qty := hpos lot (List.mem_cons_self lot rest)
    have hrest : lotsPositive rest := fun l hl' => hpos l (List.mem_cons_of_mem _ hl')
    rw [totalQty_cons] at hsuff
    by_cases h : 0 < qty
    · rw [sellLoop_cons h]
      by_cases hc : qty < lot.qty
      · have hmin : min lot.qty qty = qty := by omega
        rw [hmin]
        have hg : 0 < lot.qty - qty := by omega
        rw [if_pos hg]
        have h0 : ¬ 0 < qty - qty := by omega
        rw [sellLoop_stop h0]
        simp [fifoRemaining, fifoCrossed, crossedRecord, hc, not_le.mpr h]
      · have hmin : min lot.qty qty = lot.qty := by omega
        rw [hmin]
        have hg : ¬ 0 < lot.qty - lot.qty := by omega
        rw [if_neg hg]
        have hsuff' : qty - lot.qty ≤ totalQty rest := by omega
        rw [sellLoop_acc, ih hrest hsuff']
        simp [fifoRemaining, fifoCrossed, crossedRecord, hc, not_le.mpr h]
    · rw [sellLoop_stop h]
      simp [fifoRemaining, fifoCrossed, not_lt.mp h]

/-- With positive lots and insufficient inventory the matching loop raises,
leaving the deque fully drained and one full-consumption record per original
lot appended to the records list. -/
theorem sellLoop_insufficient (date : Int) (symbol : String) (price : Rat)
    {qty : Int} {inventory : List Lot} (records : List PnlRecord)
    (hpos : lotsPositive inventory) (hlt : totalQty inventory < qty) :
    sellLoop date symbol price qty inventory records =
      ⟨[],
       records ++ inventory.map (fun lot => crossedRecord date symbol price (lot, lot.qty)),
       some .insufficientInventory⟩ := by
  revert hpos hlt
  induction inventory generalizing qty records with
  | nil =>
    intro hpos hlt
    rw [totalQty_nil] at hlt
    rw [sellLoop_empty hlt]
    simp
  | cons lot rest ih =>
    intro hpos hlt
    have hl : 0 < lot.qty := hpos lot (List.mem_cons_self lot rest)
    have hrest : lotsPositive rest := fun l hl' => hpos l (List.mem_cons_of_mem _ hl')
    have htr : 0 ≤ totalQty rest := totalQty_nonneg hrest
    rw [totalQty_cons] at hlt
    have h : 0 < qty := by omega
    rw [sellLoop_cons h]
    have hmin : min lot.qty qty = lot.qty := by omega
    rw [hmin]
    have hg : ¬ 0 < lot.qty - lot.qty := by omega
    rw [if_neg hg]
    have hlt' : totalQty rest < qty - lot.qty := by omega
    rw [ih _ hrest hlt']
    simp [crossedRecord]

/-- The matching loop raises `InsufficientInventory` exactly when the
requested quantity exceeds the queue's total quantity. -/
theorem sellLoop_error_iff (date : Int) (symbol : String) (price : Rat)
    (qty : Int) (inventory : List Lot) (records : List PnlRecord)
    (hpos : lotsPositive inventory) :
    (sellLoop date symbol price qty inventory records).error.isSome ↔
      totalQty inventory < qty := by
  rcases lt_or_le (totalQty inventory) qty with hlt | hle
  · rw [sellLoop_insufficient date symbol price records hpos hlt]
    simp [hlt]
  · rw [sellLoop_acc, sellLoop_fifo date symbol price hpos hle]
    simp
    omega

/-- The matching loop preserves strict positivity of lot quantities. -/
theorem sellLoop_lotsPositive (date : Int) (symbol : String) (price : Rat)
    (remaining : Int) {inventory : List Lot} (records : List PnlRecord)
    (hpos : lotsPositive inventory) :
    lotsPositive (sellLoop date symbol price remaining inventory records).inventory := by
  revert hpos
  induction inventory generalizing remaining records with
  | nil =>
    intro hpos
    by_cases h : 0 < remaining
    · rw [sellLoop_empty h]
      intro l hl
      simp at hl
    · rw [sellLoop_stop h]
      exact hpos
  | cons lot rest ih =>
    intro hpos
    have hrest : lotsPositive rest := fun l hl' => hpos l (List.mem_cons_of_mem _ hl')
    by_cases h : 0 < remaining
    · rw [sellLoop_cons h]
      by_cases hq : 0 < lot.qty - min lot.qty remaining
      · have h0 : ¬ 0 < remaining - min lot.qty remaining := by omega
        rw [if_pos hq, sellLoop_stop h0]
        intro l hl
        rcases List.mem_cons.mp hl with rfl | hl'
        · exact hq
        · exact hrest l hl'
      · rw [if_neg hq]
        exact ih _ _ hrest
    · rw [sellLoop_stop h]
      exact hpos

/-- Every record the matching loop appends carries the engine's single
rounding policy. -/
theorem sellLoop_wellRounded (date : Int) (symbol : String) (price : Rat)
    (remaining : Int) (inventory : List Lot) (records : List PnlRecord)
    (hrecs : ∀ r ∈ records, pnlWellRounded r) :
    ∀ r ∈ (sellLoop date symbol price remaining inventory records).records,
      pnlWellRounded r := by
  induction inventory generalizing remaining records with
  | nil =>
    by_cases h : 0 < remaining
    · rw [sellLoop_empty h]
      exact hrecs
    · rw [sellLoop_stop h]
      exact hrecs
  | cons lot rest ih =>
    by_cases h : 0 < remaining
    · rw [sellLoop_cons h]
      have hrecs' : ∀ r ∈ records ++
          [⟨date, symbol, min lot.qty remaining, price, lot.date, lot.price,
            roundHalfEven (((min lot.qty remaining : Int) : Rat) * (price - lot.price))⟩],
          pnlWellRounded r := by
        intro r hr
        rcases List.mem_append.mp hr with hr' | hr'
        · exact hrecs r hr'
        · rcases List.mem_singleton.mp hr' with rfl
          simp [pnlWellRounded]
      by_cases hq : 0 < lot.qty - min lot.qty remaining
      · have h0 : ¬ 0 < remaining - min lot.qty remaining := by omega
        rw [if_pos hq, sellLoop_stop h0]
        exact hrecs'
      · rw [if_neg hq]
        exact ih _ _ hrecs'
    · rw [sellLoop_stop h]
      exact hrecs

/-! ## processTrade and apply_corporate_action equations -/

theorem processTrade_buy {tr : Trade} (inventories : Inventories) (records : List PnlRecord)
    (h : tr.side = "BUY") :
    processTrade tr inventories records =
      (dictSet tr.stock_symbol
        (getInv inventories tr.stock_symbol ++ [⟨tr.qty, tr.price, tr.transaction_date⟩])
        (setdefaultDict tr.stock_symbol [] inventories), records, none) := by
  rw [processTrade]
  simp [h, getInv_setdefault]

theorem processTrade_sell {tr : Trade} (inventories : Inventories) (records : List PnlRecord)
    (h : tr.side = "SELL") :
    processTrade tr inventories records =
      (dictSet tr.stock_symbol
        (sellLoop tr.transaction_date tr.stock_symbol tr.price tr.qty
          (getInv inventories tr.stock_symbol) records).inventory
        (setdefaultDict tr.stock_symbol [] inventories),
       (sellLoop tr.transaction_date tr.stock_symbol tr.price tr.qty
          (getInv inventories tr.stock_symbol) records).records,
       (sellLoop tr.transaction_date tr.stock_symbol tr.price tr.qty
          (getInv inventories tr.stock_symbol) records).error) := by
  rw [processTrade]
  simp [h, getInv_setdefault]

theorem apply_corporate_action_split {a : Action} (inventories : Inventories)
    (htype : a.action_type = "SPLIT") (hrf : 0 < a.ratio_from) (hrt : 0 < a.ratio_to)
    (hmul : a.ratio_to % a.ratio_from = 0) :
    apply_corporate_action a inventories =
      (dictSet a.symbol
        ((getInv inventories a.symbol).map (splitLot (a.ratio_to / a.ratio_from)))
        (setdefaultDict a.symbol [] inventories), none) := by
  rw [apply_corporate_action]
  simp [htype, hmul, getInv_setdefault]
  omega

theorem apply_corporate_action_invalid {a : Action} (inventories : Inventories)
    (htype : a.action_type = "SPLIT")
    (hbad : a.ratio_from ≤ 0 ∨ a.ratio_to ≤ 0 ∨ a.ratio_to % a.ratio_from ≠ 0) :
    apply_corporate_action a inventories =
      (setdefaultDict a.symbol [] inventories, some .invalidSplitRatio) := by
  rw [apply_corporate_action]
  rcases hbad with h | h | h
  · simp [htype, h]
  · simp [htype, h]
  · by_cases h2 : a.ratio_from ≤ 0 ∨ a.ratio_to ≤ 0
    · simp [htype, h2]
    · simp [htype, h2, h]

theorem apply_corporate_action_unsupported {a : Action} (inventories : Inventories)
    (htype : a.action_type ≠ "SPLIT") :
    apply_corporate_action a inventories =
      (setdefaultDict a.symbol [] inventories, some .unsupportedAction) := by
  rw [apply_corporate_action]
  simp [htype]

/-! ## runLoop step equations -/

theorem runLoop_nil {s : EngineState} (hT : s.trade_q = []) (hA : s.action_q = []) :
    runLoop s = (s, none) := by
  obtain ⟨tq, aq, inv, recs, sd, ss⟩ := s
  simp only at hT hA
  subst hT hA
  rw [runLoop]
  simp

theorem runLoop_action_err {s : EngineState} {act : Action} {acts : List Action}
    {e : EngineError} (hA : s.action_q = act :: acts)
    (hgo : actionGoesFirst s.trade_q s.action_q = true)
    (herr : (apply_corporate_action act s.inventories).2 = some e) :
    runLoop s =
      ({ s with
          action_q := acts,
          inventories := (apply_corporate_action act s.inventories).1,
          snap_dates := (consume_until (peekNextEventDate s.trade_q s.action_q)
            s.inventories s.snap_dates s.snapshots).1,
          snapshots := (consume_until (peekNextEventDate s.trade_q s.action_q)
            s.inventories s.snap_dates s.snapshots).2 }, some e) := by
  obtain ⟨tq, aq, inv, recs, sd, ss⟩ := s
  simp only at hA hgo herr ⊢
  subst hA
  have hne : ¬ (tq = [] ∧ act :: acts = ([] : List Action)) := by simp
  rw [runLoop]
  simp [hne, hgo, herr]

theorem runLoop_action_ok {s : EngineState} {act : Action} {acts : List Action}
    (hA : s.action_q = act :: acts)
    (hgo : actionGoesFirst s.trade_q s.action_q = true)
    (hok : (apply_corporate_action act s.inventories).2 = none) :
    runLoop s =
      runLoop { s with
        action_q := acts,
        inventories := (apply_corporate_action act s.inventories).1,
        snap_dates := (consume_until (peekNextEventDate s.trade_q s.action_q)
          s.inventories s.snap_dates s.snapshots).1,
        snapshots := (consume_until (peekNextEventDate s.trade_q s.action_q)
          s.inventories s.snap_dates s.snapshots).2 } := by
  obtain ⟨tq, aq, inv, recs, sd, ss⟩ := s
  simp only at hA hgo hok ⊢
  subst hA
  have hne : ¬ (tq = [] ∧ act :: acts = ([] : List Action)) := by simp
  conv_lhs => rw [runLoop]
  simp [hne, hgo, hok]

theorem runLoop_trade_err {s : EngineState} {tr : Trade} {trs : List Trade}
    {e : EngineError} (hT : s.trade_q = tr :: trs)
    (hgo : actionGoesFirst s.trade_q s.action_q = false)
    (herr : (processTrade tr s.inventories s.records).2.2 = some e) :
    runLoop s =
      ({ s with
          trade_q := trs,
          inventories := (processTrade tr s.inventories s.records).1,
          records := (processTrade tr s.inventories s.records).2.1,
          snap_dates := (consume_until (peekNextEventDate s.trade_q s.action_q)
            s.inventories s.snap_dates s.snapshots).1,
          snapshots := (consume_until (peekNextEventDate s.trade_q s.action_q)
            s.inventories s.snap_dates s.snapshots).2 }, some e) := by
  obtain ⟨tq, aq, inv, recs, sd, ss⟩ := s
  simp only at hT hgo herr ⊢
  subst hT
  have hne : ¬ (tr :: trs = ([] : List Trade) ∧ aq = []) := by simp
  rw [runLoop]
  simp [hne, hgo, herr]

theorem runLoop_trade_ok {s : EngineState} {tr : Trade} {trs : List Trade}
    (hT : s.trade_q = tr :: trs)
    (hgo : actionGoesFirst s.trade_q s.action_q = false)
    (hok : (processTrade tr s.inventories s.records).2.2 = none) :
    runLoop s =
      runLoop { s with
        trade_q := trs,
        inventories := (processTrade tr s.inventories s.records).1,
        records := (processTrade tr s.inventories s.records).2.1,
        snap_dates := (consume_until (peekNextEventDate s.trade_q s.action_q)
          s.inventories s.snap_dates s.snapshots).1,
        snapshots := (consume_until (peekNextEventDate s.trade_q s.action_q)
          s.inventories s.snap_dates s.snapshots).2 } := by
  obtain ⟨tq, aq, inv, recs, sd, ss⟩ := s
  simp only at hT hgo hok ⊢
  subst hT
  have hne : ¬ (tr :: trs = ([] : List Trade) ∧ aq = []) := by simp
  conv_lhs => rw [runLoop]
  simp [hne, hgo, hok]

theorem actionGoesFirst_nil_action (trade_q : List Trade) :
    actionGoesFirst trade_q [] = false := by
  cases trade_q <;> rfl

/-! ## Positivity invariant -/

theorem lotsPositive_getInv {inventories : Inventories} (h : invsPositive inventories)
    (sym : String) : lotsPositive (getInv inventories sym) := by
  unfold getInv
  cases hg : dictGet? sym inventories with
  | none =>
    intro l hl
    simp at hl
  | some lots =>
    simpa using h (sym, lots) (dictGet?_mem hg)

theorem invsPositive_dictSet {inventories : Inventories} {lots : List Lot} (sym : String)
    (hinv : invsPositive inventories) (hl : lotsPositive lots) :
    invsPositive (dictSet sym lots inventories) := by
  induction inventories with
  | nil =>
    intro p hp
    simp [dictSet] at hp
    rw [hp]
    exact hl
  | cons q t ih =>
    have hint : invsPositive t := fun p hp => hinv p (List.mem_cons_of_mem _ hp)
    intro p hp
    rw [dictSet] at hp
    by_cases hq : q.1 = sym
    · rw [if_pos hq] at hp
      rcases List.mem_cons.mp hp with rfl | hp'
      · exact hl
      · exact hint p hp'
    · rw [if_neg hq] at hp
      rcases List.mem_cons.mp hp with rfl | hp'
      · exact hinv p (List.mem_cons_self _ _)
      · exact ih hint p hp'

theorem invsPositive_setdefault {inventories : Inventories} (sym : String)
    (hinv : invsPositive inventories) :
    invsPositive (setdefaultDict sym [] inventories) := by
  unfold setdefaultDict
  split
  · exact hinv
  · intro p hp
    rcases List.mem_append.mp hp with hp' | hp'
    · exact hinv p hp'
    · simp at hp'
      rw [hp']
      intro l hl
      simp at hl

/-- A valid split's multiplier `k = ratio_to / ratio_from` is strictly positive. -/
theorem split_multiplier_pos {rf rt : Int} (hrf : 0 < rf) (hrt : 0 < rt)
    (hmul : rt % rf = 0) : 0 < rt / rf := by
  obtain ⟨k0, hk0⟩ := Int.dvd_of_emod_eq_zero hmul
  have hdiv : rt / rf = k0 := by
    rw [hk0]
    exact Int.mul_ediv_cancel_left _ (ne_of_gt hrf)
  rw [hdiv]
  rcases le_or_lt k0 0 with hk0le | hk0pos
  · exfalso
    have : rf * k0 ≤ rf * 0 := mul_le_mul_of_nonneg_left hk0le (le_of_lt hrf)
    rw [mul_zero] at this
    rw [hk0] at hrt
    omega
  · exact hk0pos

theorem apply_corporate_action_invsPositive (a : Action) (inventories : Inventories)
    (hinv : invsPositive inventories) :
    invsPositive (apply_corporate_action a inventories).1 := by
  by_cases htype : a.action_type = "SPLIT"
  · by_cases hbad : a.ratio_from ≤ 0 ∨ a.ratio_to ≤ 0 ∨ a.ratio_to % a.ratio_from ≠ 0
    · rw [apply_corporate_action_invalid _ htype hbad]
      exact invsPositive_setdefault _ hinv
    · push_neg at hbad
      obtain ⟨hrf, hrt, hmul⟩ := hbad
      rw [apply_corporate_action_split _ htype (by omega) (by omega) hmul]
      apply invsPositive_dictSet _ (invsPositive_setdefault _ hinv)
      intro l hl
      rcases List.mem_map.mp hl with ⟨lot, hmem, rfl⟩
      have hlot : 0 < lot.qty := lotsPositive_getInv hinv a.symbol lot hmem
      have hk : 0 < a.ratio_to / a.ratio_from := split_multiplier_pos (by omega) (by omega) hmul
      exact mul_pos hlot hk
  · rw [apply_corporate_action_unsupported _ htype]
    exact invsPositive_setdefault _ hinv

theorem processTrade_invsPositive (tr : Trade) (inventories : Inventories)
    (records : List PnlRecord) (hq : 0 < tr.qty) (hinv : invsPositive inventories) :
    invsPositive (processTrade tr inventories records).1 := by
  by_cases hb : tr.side = "BUY"
  · rw [processTrade_buy _ _ hb]
    apply invsPositive_dictSet _ (invsPositive_setdefault _ hinv)
    intro l hl
    rcases List.mem_append.mp hl with hl' | hl'
    · exact lotsPositive_getInv hinv _ l hl'
    · simp at hl'
      rw [hl']
      exact hq
  · by_cases hs : tr.side = "SELL"
    · rw [processTrade_sell _ _ hs]
      exact invsPositive_dictSet _ (invsPositive_setdefault _ hinv)
        (sellLoop_lotsPositive _ _ _ _ _ (lotsPositive_getInv hinv _))
    · rw [processTrade]
      simp only [hb, hs, if_false]
      exact invsPositive_setdefault _ hinv

theorem runLoop_invsPositive : ∀ (n : ℕ) (s : EngineState),
    s.trade_q.length + s.action_q.length ≤ n →
    tradesPositive s.trade_q → invsPositive s.inventories →
    invsPositive (runLoop s).1.inventories := by
  intro n
  induction n with
  | zero =>
    intro s hlen htr hinv
    have hT : s.trade_q = [] := List.length_eq_zero.mp (by omega)
    have hA : s.action_q = [] := List.length_eq_zero.mp (by omega)
    rw [runLoop_nil hT hA]
    exact hinv
  | succ n ih =>
    intro s hlen htr hinv
    by_cases hgo : actionGoesFirst s.trade_q s.action_q = true
    · obtain ⟨act, acts, hA⟩ : ∃ act acts, s.action_q = act :: acts := by
        cases hq : s.action_q with
        | nil => rw [hq, actionGoesFirst_nil_action] at hgo; exact absurd hgo (by simp)
        | cons a as => exact ⟨a, as, rfl⟩
      cases herr : (apply_corporate_action act s.inventories).2 with
      | some e =>
        rw [runLoop_action_err hA hgo herr]
        exact apply_corporate_action_invsPositive act s.inventories hinv
      | none =>
        rw [runLoop_action_ok hA hgo herr]
        apply ih
        · simp [hA] at hlen ⊢
          omega
        · exact htr
        · exact apply_corporate_action_invsPositive act s.inventories hinv
    · have hgo' : actionGoesFirst s.trade_q s.action_q = false := by
        revert hgo
        cases actionGoesFirst s.trade_q s.action_q <;> simp
      by_cases hT : s.trade_q = []
      · have hA : s.action_q = [] := by
          cases hq : s.action_q with
          | nil => rfl
          | cons a as =>
            rw [hT, hq] at hgo'
            simp [actionGoesFirst] at hgo'
        rw [runLoop_nil hT hA]
        exact hinv
      · obtain ⟨tr, trs, hT'⟩ : ∃ tr trs, s.trade_q = tr :: trs := by
          cases hq : s.trade_q with
          | nil => exact absurd hq hT
          | cons t ts => exact ⟨t, ts, rfl⟩
        have htrq : 0 < tr.qty := htr tr (hT' ▸ List.mem_cons_self tr trs)
        cases herr : (processTrade tr s.inventories s.records).2.2 with
        | some e =>
          rw [runLoop_trade_err hT' hgo' herr]
          exact processTrade_invsPositive tr s.inventories s.records htrq hinv
        | none =>
          rw [runLoop_trade_ok hT' hgo' herr]
          apply ih
          · simp [hT'] at hlen ⊢
            omega
          · exact fun t ht => htr t (hT' ▸ List.mem_cons_of_mem _ ht)
          · exact processTrade_invsPositive tr s.inventories s.records htrq hinv

/-! ## Snapshot collector characterizations -/

theorem consume_until_nil (cutoff : Option Int) (inventories : Inventories)
    (snapshots : SnapDict) : consume_until cutoff inventories [] snapshots = ([], snapshots) :=
  rfl

theorem dictGet?_mapDates_mem {d : Int} {dates : List Int} (v : Snap) (hd : d ∈ dates) :
    dictGet? d (dates.map (fun x => (x, v))) = some v := by
  induction dates with
  | nil => simp at hd
  | cons e es ih =>
    rcases List.mem_cons.mp hd with rfl | hd'
    · simp [dictGet?]
    · by_cases he : e = d
      · simp [dictGet?, he]
      · simp [dictGet?, he, ih hd']

theorem dictGet?_mapDates_not_mem {d : Int} {dates : List Int} (v : Int → Snap)
    (hd : d ∉ dates) : dictGet? d (dates.map (fun x => (x, v x))) = none := by
  induction dates with
  | nil => rfl
  | cons e es ih =>
    have hne : e ≠ d := fun h => hd (h ▸ List.mem_cons_self e es)
    have hd' : d ∉ es := fun h => hd (List.mem_cons_of_mem _ h)
    simp [dictGet?, hne, ih hd']

theorem consume_until_none_eq (inventories : Inventories) :
    ∀ (dates : List Int) (snapshots : SnapDict), dates.Nodup →
    (∀ x ∈ dates, dictGet? x snapshots = none) →
    consume_until none inventories dates snapshots =
      ([], snapshots ++ dates.map (fun x => (x, snapshotInventory inventories))) := by
  intro dates
  induction dates with
  | nil => intro snapshots _ _; simp [consume_until_nil]
  | cons d ds ih =>
    intro snapshots hnodup hfresh
    rw [consume_until]
    simp only [Option.all_none, if_true]
    rw [dictSet_eq_append _ (hfresh d (List.mem_cons_self d ds))]
    rw [ih _ (List.Nodup.of_cons hnodup)]
    · simp
    · intro x hx
      rw [dictGet?_append_of_none _ (hfresh x (List.mem_cons_of_mem _ hx))]
      have hne : d ≠ x := by
        intro h
        exact (List.nodup_cons.mp hnodup).1 (h ▸ hx)
      simp [dictGet?, hne]

theorem consume_until_some_eq (c : Int) (inventories : Inventories) :
    ∀ (dates : List Int) (snapshots : SnapDict), dates.Nodup →
    (∀ x ∈ dates, dictGet? x snapshots = none) →
    consume_until (some c) inventories dates snapshots =
      (dates.dropWhile (fun x => decide (x < c)),
       snapshots ++
         (dates.takeWhile (fun x => decide (x < c))).map
           (fun x => (x, snapshotInventory inventories))) := by
  intro dates
  induction dates with
  | nil => intro snapshots _ _; simp [consume_until_nil]
  | cons d ds ih =>
    intro snapshots hnodup hfresh
    rw [consume_until]
    by_cases hd : d < c
    · simp only [Option.all_some, decide_eq_true_eq, if_pos hd]
      rw [dictSet_eq_append _ (hfresh d (List.mem_cons_self d ds))]
      rw [ih _ (List.Nodup.of_cons hnodup)]
      · rw [List.dropWhile_cons_of_pos (by simpa using hd),
          List.takeWhile_cons_of_pos (by simpa using hd)]
        simp
      · intro x hx
        rw [dictGet?_append_of_none _ (hfresh x (List.mem_cons_of_mem _ hx))]
        have hne : d ≠ x := by
          intro h
          exact (List.nodup_cons.mp hnodup).1 (h ▸ hx)
        simp [dictGet?, hne]
    · simp only [Option.all_some, decide_eq_true_eq, if_neg hd]
      rw [List.dropWhile_cons_of_neg (by simpa using hd),
        List.takeWhile_cons_of_neg (by simpa using hd)]
      simp

theorem mem_takeWhile_sorted {d c : Int} {dates : List Int}
    (hsorted : dates.Pairwise (· < ·)) (hd : d ∈ dates) (hlt : d < c) :
    d ∈ dates.takeWhile (fun x => decide (x < c)) := by
  induction dates with
  | nil => simp at hd
  | cons e es ih =>
    rcases List.mem_cons.mp hd with rfl | hd'
    · rw [List.takeWhile_cons_of_pos (by simpa using hlt)]
      exact List.mem_cons_self _ _
    · have hee : e < d := (List.pairwise_cons.mp hsorted).1 d hd'
      rw [List.takeWhile_cons_of_pos (by simp; omega)]
      exact List.mem_cons_of_mem _ (ih (List.pairwise_cons.mp hsorted).2 hd')

theorem mem_dropWhile_not {d c : Int} {dates : List Int}
    (hd : d ∈ dates) (hge : ¬ d < c) :
    d ∈ dates.dropWhile (fun x => decide (x < c)) := by
  induction dates with
  | nil => simp at hd
  | cons e es ih =>
    by_cases he : e < c
    · rw [List.dropWhile_cons_of_pos (by simpa using he)]
      rcases List.mem_cons.mp hd with rfl | hd'
      · exact absurd he hge
      · exact ih hd'
    · rw [List.dropWhile_cons_of_neg (by simpa using he)]
      exact hd

/-! ## Merge-loop dispatch facts -/

theorem peek_action {trade_q : List Trade} {action_q : List Action} {act : Action}
    {acts : List Action} (hgo : actionGoesFirst trade_q action_q = true)
    (hA : action_q = act :: acts) :
    peekNextEventDate trade_q action_q = some act.action_date := by
  subst hA
  cases trade_q with
  | nil => rfl
  | cons t ts =>
    have hlt : act.action_date < t.transaction_date := by simpa [actionGoesFirst] using hgo
    simp [peekNextEventDate, not_le.mpr hlt]

theorem peek_trade {trade_q : List Trade} {action_q : List Action} {tr : Trade}
    {trs : List Trade} (hgo : actionGoesFirst trade_q action_q = false)
    (hT : trade_q = tr :: trs) :
    peekNextEventDate trade_q action_q = some tr.transaction_date := by
  subst hT
  cases action_q with
  | nil => rfl
  | cons a as =>
    have hle : tr.transaction_date ≤ a.action_date := by
      have hnot : ¬ a.action_date < tr.transaction_date := by
        simpa [actionGoesFirst] using hgo
      omega
    simp [peekNextEventDate, hle]

theorem filter_trades_nil {d : Int} {trade_q : List Trade} {tr : Trade} {trs : List Trade}
    (hsorted : tradesSortedByDate trade_q) (hT : trade_q = tr :: trs)
    (hgt : d < tr.transaction_date) :
    trade_q.filter (fun t => t.transaction_date ≤ d) = [] := by
  subst hT
  rw [List.filter_eq_nil_iff]
  intro x hx
  rcases List.mem_cons.mp hx with rfl | hx'
  · simp only [decide_eq_true_eq]
    omega
  · have := (List.pairwise_cons.mp hsorted).1 x hx'
    simp only [decide_eq_true_eq]
    omega

theorem filter_actions_nil {d : Int} {action_q : List Action} {a : Action} {as : List Action}
    (hsorted : actionsSortedByDate action_q) (hA : action_q = a :: as)
    (hgt : d < a.action_date) :
    action_q.filter (fun x => x.action_date ≤ d) = [] := by
  subst hA
  rw [List.filter_eq_nil_iff]
  intro x hx
  rcases List.mem_cons.mp hx with rfl | hx'
  · simp only [decide_eq_true_eq]
    omega
  · have := (List.pairwise_cons.mp hsorted).1 x hx'
    simp only [decide_eq_true_eq]
    omega

/-- The records list is a pure accumulator of the per-trade body too. -/
theorem processTrade_acc (tr : Trade) (inventories : Inventories)
    (records : List PnlRecord) :
    processTrade tr inventories records =
      ((processTrade tr inventories []).1,
       records ++ (processTrade tr inventories []).2.1,
       (processTrade tr inventories []).2.2) := by
  by_cases hb : tr.side = "BUY"
  · rw [processTrade_buy _ _ hb, processTrade_buy _ _ hb]
    simp
  · by_cases hs : tr.side = "SELL"
    · rw [processTrade_sell _ _ hs, processTrade_sell _ _ hs]
      rw [sellLoop_acc]
    · rw [processTrade, processTrade]
      simp [hb, hs]

theorem invAfterUpTo_nil_filters {d : Int} {trade_q : List Trade} {action_q : List Action}
    (inventories : Inventories)
    (htf : trade_q.filter (fun t => t.transaction_date ≤ d) = [])
    (haf : action_q.filter (fun a => a.action_date ≤ d) = []) :
    invAfterUpTo d trade_q action_q inventories = inventories := by
  unfold invAfterUpTo
  rw [htf, haf, runLoop_nil rfl rfl]

/-- The engine-level records list is a pure accumulator as well. -/
theorem runLoop_records_acc : ∀ (n : ℕ) (s : EngineState),
    s.trade_q.length + s.action_q.length ≤ n →
    runLoop s =
      ({ (runLoop { s with records := [] }).1 with
          records := s.records ++ (runLoop { s with records := [] }).1.records },
       (runLoop { s with records := [] }).2) := by
  intro n
  induction n with
  | zero =>
    intro s hlen
    have hT : s.trade_q = [] := List.length_eq_zero.mp (by omega)
    have hA : s.action_q = [] := List.length_eq_zero.mp (by omega)
    rw [runLoop_nil hT hA, runLoop_nil (s := { s with records := [] }) hT hA]
    simp
  | succ n ih =>
    intro s hlen
    by_cases hgo : actionGoesFirst s.trade_q s.action_q = true
    · obtain ⟨act, acts, hA⟩ : ∃ act acts, s.action_q = act :: acts := by
        cases hq : s.action_q with
        | nil => rw [hq, actionGoesFirst_nil_action] at hgo; exact absurd hgo (by simp)
        | cons a as => exact ⟨a, as, rfl⟩
      cases herr : (apply_corporate_action act s.inventories).2 with
      | some e =>
        rw [runLoop_action_err hA hgo herr,
          runLoop_action_err (s := { s with records := [] }) hA hgo herr]
        simp
      | none =>
        rw [runLoop_action_ok hA hgo herr,
          runLoop_action_ok (s := { s with records := [] }) hA hgo herr]
        have hlen' : s.trade_q.length + acts.length ≤ n := by
          simp [hA] at hlen
          omega
        rw [ih { s with
            action_q := acts,
            inventories := (apply_corporate_action act s.inventories).1,
            snap_dates := (consume_until (peekNextEventDate s.trade_q s.action_q)
              s.inventories s.snap_dates s.snapshots).1,
            snapshots := (consume_until (peekNextEventDate s.trade_q s.action_q)
              s.inventories s.snap_dates s.snapshots).2 } (by simpa using hlen')]
    · have hgo' : actionGoesFirst s.trade_q s.action_q = false := by
        revert hgo
        cases actionGoesFirst s.trade_q s.action_q <;> simp
      by_cases hT : s.trade_q = []
      · have hA : s.action_q = [] := by
          cases hq : s.action_q with
          | nil => rfl
          | cons a as =>
            rw [hT, hq] at hgo'
            simp [actionGoesFirst] at hgo'
        rw [runLoop_nil hT hA, runLoop_nil (s := { s with records := [] }) hT hA]
        simp
      · obtain ⟨tr, trs, hT'⟩ : ∃ tr trs, s.trade_q = tr :: trs := by
          cases hq : s.trade_q with
          | nil => exact absurd hq hT
          | cons t ts => exact ⟨t, ts, rfl⟩
        cases herr : (processTrade tr s.inventories []).2.2 with
        | some e =>
          have h1 : (processTrade tr s.inventories s.records).2.2 = some e := by
            rw [processTrade_acc]
            exact herr
          rw [runLoop_trade_err hT' hgo' h1,
            runLoop_trade_err (s := { s with records := [] }) hT' hgo' herr]
          rw [processTrade_acc tr s.inventories s.records]
        | none =>
          have h1 : (processTrade tr s.inventories s.records).2.2 = none := by
            rw [processTrade_acc]
            exact herr
          rw [runLoop_trade_ok hT' hgo' h1,
            runLoop_trade_ok (s := { s with records := [] }) hT' hgo' herr]
          have hlen' : trs.length + s.action_q.length ≤ n := by
            simp [hT'] at hlen
            omega
          rw [ih { s with
              trade_q := trs,
              inventories := (processTrade tr s.inventories s.records).1,
              records := (processTrade tr s.inventories s.records).2.1,
              snap_dates := (consume_until (peekNextEventDate s.trade_q s.action_q)
                s.inventories s.snap_dates s.snapshots).1,
              snapshots := (consume_until (peekNextEventDate s.trade_q s.action_q)
                s.inventories s.snap_dates s.snapshots).2 } (by simpa using hlen'),
            ih { s with
              trade_q := trs,
              inventories := (processTrade tr s.inventories []).1,
              records := (processTrade tr s.inventories []).2.1,
              snap_dates := (consume_until (peekNextEventDate s.trade_q s.action_q)
                s.inventories s.snap_dates s.snapshots).1,
              snapshots := (consume_until (peekNextEventDate s.trade_q s.action_q)
                s.inventories s.snap_dates s.snapshots).2 } (by simpa using hlen')]
          rw [processTrade_acc tr s.inventories s.records]
          simp

/-- Dispatching an action dated `≤ d` commutes with truncating the event
streams at `d`. -/
theorem invAfterUpTo_action_step {d : Int} {trade_q : List Trade} {action_q : List Action}
    {act : Action} {acts : List Action} (inventories : Inventories)
    (hts : tradesSortedByDate trade_q)
    (hA : action_q = act :: acts)
    (hgo : actionGoesFirst trade_q action_q = true)
    (hok : (apply_corporate_action act inventories).2 = none)
    (hle : act.action_date ≤ d) :
    invAfterUpTo d trade_q action_q inventories =
      invAfterUpTo d trade_q acts (apply_corporate_action act inventories).1 := by
  subst hA
  unfold invAfterUpTo
  have hfa : (act :: acts).filter (fun a => a.action_date ≤ d) =
      act :: acts.filter (fun a => a.action_date ≤ d) := by
    rw [List.filter_cons_of_pos (by simpa using hle)]
  rw [hfa]
  have hgo' : actionGoesFirst (trade_q.filter (fun t => t.transaction_date ≤ d))
      (act :: acts.filter (fun a => a.action_date ≤ d)) = true := by
    cases hftc : trade_q.filter (fun t => t.transaction_date ≤ d) with
    | nil => rfl
    | cons t0 ts0 =>
      have ht0mem : t0 ∈ trade_q :=
        List.mem_of_mem_filter (hftc ▸ List.mem_cons_self t0 ts0)
      cases hq : trade_q with
      | nil => rw [hq] at hftc; simp at hftc
      | cons t ts =>
        rw [hq] at hgo
        have hlt : act.action_date < t.transaction_date := by
          simpa [actionGoesFirst] using hgo
        have hth : t.transaction_date ≤ t0.transaction_date := by
          rw [hq] at ht0mem
          rcases List.mem_cons.mp ht0mem with rfl | hmem
          · exact le_refl _
          · exact (List.pairwise_cons.mp (hq ▸ hts)).1 t0 hmem
        simp [actionGoesFirst]
        omega
  rw [runLoop_action_ok (s := ⟨trade_q.filter (fun t => t.transaction_date ≤ d),
      act :: acts.filter (fun a => a.action_date ≤ d), inventories, [], [], []⟩)
    rfl hgo' hok]
  simp [consume_until_nil]

/-- Dispatching a trade dated `≤ d` commutes with truncating the event
streams at `d`. -/
theorem invAfterUpTo_trade_step {d : Int} {trade_q : List Trade} {action_q : List Action}
    {tr : Trade} {trs : List Trade} (inventories : Inventories)
    (has : actionsSortedByDate action_q)
    (hT : trade_q = tr :: trs)
    (hgo : actionGoesFirst trade_q action_q = false)
    (hok : (processTrade tr inventories []).2.2 = none)
    (hle : tr.transaction_date ≤ d) :
    invAfterUpTo d trade_q action_q inventories =
      invAfterUpTo d trs action_q (processTrade tr inventories []).1 := by
  subst hT
  unfold invAfterUpTo
  have hft : (tr :: trs).filter (fun t => t.transaction_date ≤ d) =
      tr :: trs.filter (fun t => t.transaction_date ≤ d) := by
    rw [List.filter_cons_of_pos (by simpa using hle)]
  rw [hft]
  have hgo' : actionGoesFirst (tr :: trs.filter (fun t => t.transaction_date ≤ d))
      (action_q.filter (fun a => a.action_date ≤ d)) = false := by
    cases hfac : action_q.filter (fun a => a.action_date ≤ d) with
    | nil => rfl
    | cons a0 as0 =>
      have ha0mem : a0 ∈ action_q :=
        List.mem_of_mem_filter (hfac ▸ List.mem_cons_self a0 as0)
      cases hq : action_q with
      | nil => rw [hq] at hfac; simp at hfac
      | cons a as =>
        rw [hq] at hgo
        have hnlt : ¬ a.action_date < tr.transaction_date := by
          simpa [actionGoesFirst] using hgo
        have hah : a.action_date ≤ a0.action_date := by
          rw [hq] at ha0mem
          rcases List.mem_cons.mp ha0mem with rfl | hmem
          · exact le_refl _
          · exact (List.pairwise_cons.mp (hq ▸ has)).1 a0 hmem
        simp [actionGoesFirst]
        omega
  rw [runLoop_trade_ok (s := ⟨tr :: trs.filter (fun t => t.transaction_date ≤ d),
      action_q.filter (fun a => a.action_date ≤ d), inventories, [], [], []⟩)
    rfl hgo' hok]
  simp only [consume_until_nil]
  rw [runLoop_records_acc ((trs.filter (fun t => t.transaction_date ≤ d)).length +
      (action_q.filter (fun a => a.action_date ≤ d)).length) _ (by simp)]

/-! ## Snapshot capture across the merge loop -/

theorem snapDatesSorted_nodup {dates : List Int} (h : snapDatesSorted dates) :
    dates.Nodup :=
  List.Pairwise.imp ne_of_lt h

/-- After a `consume_until` step the remaining dates stay sorted and fresh
for the grown snapshots dict. -/
theorem consume_fresh_sorted {ν : Int} {dates : List Int} {snapshots : SnapDict}
    (inventories : Inventories) (hsorted : snapDatesSorted dates)
    (hfresh : ∀ x ∈ dates, dictGet? x snapshots = none) :
    snapDatesSorted (dates.dropWhile (fun x => decide (x < ν))) ∧
    (∀ x ∈ dates.dropWhile (fun x => decide (x < ν)),
      dictGet? x (snapshots ++ (dates.takeWhile (fun x => decide (x < ν))).map
        (fun x => (x, snapshotInventory inventories))) = none) := by
  have hnodup : dates.Nodup := snapDatesSorted_nodup hsorted
  constructor
  · exact List.Pairwise.sublist (List.dropWhile_sublist _) hsorted
  · intro x hx
    have hxD : x ∈ dates := (List.dropWhile_sublist _).subset hx
    have hnx : x ∉ dates.takeWhile (fun x => decide (x < ν)) := by
      have hnodup' : (dates.takeWhile (fun x => decide (x < ν)) ++
          dates.dropWhile (fun x => decide (x < ν))).Nodup := by
        rw [List.takeWhile_append_dropWhile]
        exact hnodup
      exact fun hmem => List.disjoint_of_nodup_append hnodup' hmem hx
    rw [dictGet?_append_of_none _ (hfresh x hxD)]
    exact dictGet?_mapDates_not_mem _ hnx

/-- The merge loop only appends to the snapshots dict, and the appended keys
are exactly the snapshot dates it consumed, in order. -/
theorem runLoop_snapshots_spec : ∀ (n : ℕ) (s : EngineState),
    s.trade_q.length + s.action_q.length ≤ n →
    snapDatesSorted s.snap_dates →
    (∀ x ∈ s.snap_dates, dictGet? x s.snapshots = none) →
    ∃ newEntries : SnapDict,
      (runLoop s).1.snapshots = s.snapshots ++ newEntries ∧
      s.snap_dates = newEntries.map Prod.fst ++ (runLoop s).1.snap_dates := by
  intro n
  induction n with
  | zero =>
    intro s hlen _ _
    have hT : s.trade_q = [] := List.length_eq_zero.mp (by omega)
    have hA : s.action_q = [] := List.length_eq_zero.mp (by omega)
    rw [runLoop_nil hT hA]
    exact ⟨[], by simp, by simp⟩
  | succ n ih =>
    intro s hlen hsorted hfresh
    have hnodup : s.snap_dates.Nodup := snapDatesSorted_nodup hsorted
    by_cases hgo : actionGoesFirst s.trade_q s.action_q = true
    · obtain ⟨act, acts, hA⟩ : ∃ act acts, s.action_q = act :: acts := by
        cases hq : s.action_q with
        | nil => rw [hq, actionGoesFirst_nil_action] at hgo; exact absurd hgo (by simp)
        | cons a as => exact ⟨a, as, rfl⟩
      have hpeek := peek_action hgo hA
      have hcons : consume_until (peekNextEventDate s.trade_q s.action_q)
          s.inventories s.snap_dates s.snapshots =
          (s.snap_dates.dropWhile (fun x => decide (x < act.action_date)),
           s.snapshots ++
             (s.snap_dates.takeWhile (fun x => decide (x < act.action_date))).map
               (fun x => (x, snapshotInventory s.inventories))) := by
        rw [hpeek]
        exact consume_until_some_eq _ _ _ _ hnodup hfresh
      obtain ⟨hsorted', hfresh'⟩ :=
        consume_fresh_sorted (ν := act.action_date) s.inventories hsorted hfresh
      cases herr : (apply_corporate_action act s.inventories).2 with
      | some e =>
        rw [runLoop_action_err hA hgo herr]
        refine ⟨(s.snap_dates.takeWhile (fun x => decide (x < act.action_date))).map
          (fun x => (x, snapshotInventory s.inventories)), ?_, ?_⟩
        · simp [hcons]
        · have h1 : List.map Prod.fst
              ((s.snap_dates.takeWhile (fun x => decide (x < act.action_date))).map
                (fun x => (x, snapshotInventory s.inventories))) =
              s.snap_dates.takeWhile (fun x => decide (x < act.action_date)) := by
            simp [Function.comp_def]
          simp only [hcons]
          rw [h1]
          exact (List.takeWhile_append_dropWhile
            (p := fun x => decide (x < act.action_date)) (l := s.snap_dates)).symm
      | none =>
        rw [runLoop_action_ok hA hgo herr]
        obtain ⟨new₂, hsnap₂, hdates₂⟩ := ih { s with
            action_q := acts,
            inventories := (apply_corporate_action act s.inventories).1,
            snap_dates := (consume_until (peekNextEventDate s.trade_q s.action_q)
              s.inventories s.snap_dates s.snapshots).1,
            snapshots := (consume_until (peekNextEventDate s.trade_q s.action_q)
              s.inventories s.snap_dates s.snapshots).2 }
          (by simp [hA] at hlen ⊢; omega)
          (by simpa [hcons] using hsorted')
          (by simpa [hcons] using hfresh')
        refine ⟨(s.snap_dates.takeWhile (fun x => decide (x < act.action_date))).map
          (fun x => (x, snapshotInventory s.inventories)) ++ new₂, ?_, ?_⟩
        · rw [hsnap₂]
          simp [hcons]
        · have h1 : List.map Prod.fst
              ((s.snap_dates.takeWhile (fun x => decide (x < act.action_date))).map
                (fun x => (x, snapshotInventory s.inventories))) =
              s.snap_dates.takeWhile (fun x => decide (x < act.action_date)) := by
            simp [Function.comp_def]
          simp only [hcons] at hdates₂
          simp only [hcons]
          rw [List.map_append, h1, List.append_assoc, ← hdates₂]
          exact (List.takeWhile_append_dropWhile
            (p := fun x => decide (x < act.action_date)) (l := s.snap_dates)).symm
    · have hgo' : actionGoesFirst s.trade_q s.action_q = false := by
        revert hgo
        cases actionGoesFirst s.trade_q s.action_q <;> simp
      by_cases hT : s.trade_q = []
      · have hA : s.action_q = [] := by
          cases hq : s.action_q with
          | nil => rfl
          | cons a as =>
            rw [hT, hq] at hgo'
            simp [actionGoesFirst] at hgo'
        rw [runLoop_nil hT hA]
        exact ⟨[], by simp, by simp⟩
      · obtain ⟨tr, trs, hT'⟩ : ∃ tr trs, s.trade_q = tr :: trs := by
          cases hq : s.trade_q with
          | nil => exact absurd hq hT
          | cons t ts => exact ⟨t, ts, rfl⟩
        have hpeek := peek_trade hgo' hT'
        have hcons : consume_until (peekNextEventDate s.trade_q s.action_q)
            s.inventories s.snap_dates s.snapshots =
            (s.snap_dates.dropWhile (fun x => decide (x < tr.transaction_date)),
             s.snapshots ++
               (s.snap_dates.takeWhile (fun x => decide (x < tr.transaction_date))).map
                 (fun x => (x, snapshotInventory s.inventories))) := by
          rw [hpeek]
          exact consume_until_some_eq _ _ _ _ hnodup hfresh
        obtain ⟨hsorted', hfresh'⟩ :=
          consume_fresh_sorted (ν := tr.transaction_date) s.inventories hsorted hfresh
        cases herr : (processTrade tr s.inventories s.records).2.2 with
        | some e =>
          rw [runLoop_trade_err hT' hgo' herr]
          refine ⟨(s.snap_dates.takeWhile (fun x => decide (x < tr.transaction_date))).map
            (fun x => (x, snapshotInventory s.inventories)), ?_, ?_⟩
          · simp [hcons]
          · have h1 : List.map Prod.fst
                ((s.snap_dates.takeWhile (fun x => decide (x < tr.transaction_date))).map
                  (fun x => (x, snapshotInventory s.inventories))) =
                s.snap_dates.takeWhile (fun x => decide (x < tr.transaction_date)) := by
              simp [Function.comp_def]
            simp only [hcons]
            rw [h1]
            exact (List.takeWhile_append_dropWhile
              (p := fun x => decide (x < tr.transaction_date)) (l := s.snap_dates)).symm
        | none =>
          rw [runLoop_trade_ok hT' hgo' herr]
          obtain ⟨new₂, hsnap₂, hdates₂⟩ := ih { s with
              trade_q := trs,
              inventories := (processTrade tr s.inventories s.records).1,
              records := (processTrade tr s.inventories s.records).2.1,
              snap_dates := (consume_until (peekNextEventDate s.trade_q s.action_q)
                s.inventories s.snap_dates s.snapshots).1,
              snapshots := (consume_until (peekNextEventDate s.trade_q s.action_q)
                s.inventories s.snap_dates s.snapshots).2 }
            (by simp [hT'] at hlen ⊢; omega)
            (by simpa [hcons] using hsorted')
            (by simpa [hcons] using hfresh')
          refine ⟨(s.snap_dates.takeWhile (fun x => decide (x < tr.transaction_date))).map
            (fun x => (x, snapshotInventory s.inventories)) ++ new₂, ?_, ?_⟩
          · rw [hsnap₂]
            simp [hcons]
          · have h1 : List.map Prod.fst
                ((s.snap_dates.takeWhile (fun x => decide (x < tr.transaction_date))).map
                  (fun x => (x, snapshotInventory s.inventories))) =
                s.snap_dates.takeWhile (fun x => decide (x < tr.transaction_date)) := by
              simp [Function.comp_def]
            simp only [hcons] at hdates₂
            simp only [hcons]
            rw [List.map_append, h1, List.append_assoc, ← hdates₂]
            exact (List.takeWhile_append_dropWhile
              (p := fun x => decide (x < tr.transaction_date)) (l := s.snap_dates)).symm

/-- Terminal configuration: every still-pending snapshot date is captured by
`finalize` against the current inventory. -/
theorem snapshot_value_terminal (s : EngineState) (hT : s.trade_q = []) (hA : s.action_q = [])
    (hsorted : snapDatesSorted s.snap_dates)
    (hfresh : ∀ x ∈ s.snap_dates, dictGet? x s.snapshots = none) :
    ∀ d ∈ s.snap_dates,
      dictGet? d (consume_until none (runLoop s).1.inventories
        (runLoop s).1.snap_dates (runLoop s).1.snapshots).2 =
        some (snapshotInventory (invAfterUpTo d s.trade_q s.action_q s.inventories)) := by
  intro d hd
  rw [runLoop_nil hT hA]
  simp only
  rw [consume_until_none_eq _ _ _ (snapDatesSorted_nodup hsorted) hfresh]
  simp only
  rw [dictGet?_append_of_none _ (hfresh d hd), dictGet?_mapDates_mem _ hd]
  rw [hT, hA, invAfterUpTo_nil_filters _ (List.filter_nil _) (List.filter_nil _)]

/-- From the keys decomposition of the loop's result, the finalize step's
preconditions hold, and a binding already present before the loop's remaining
work survives to the finalized dict unchanged. -/
theorem final_lookup_of_found {s₁ : EngineState} {d : Int} {v : Snap}
    (hsorted₁ : snapDatesSorted s₁.snap_dates)
    (hfresh₁ : ∀ x ∈ s₁.snap_dates, dictGet? x s₁.snapshots = none)
    (hfound : dictGet? d s₁.snapshots = some v)
    (hn : s₁.trade_q.length + s₁.action_q.length ≤ s₁.trade_q.length + s₁.action_q.length) :
    dictGet? d (consume_until none (runLoop s₁).1.inventories
      (runLoop s₁).1.snap_dates (runLoop s₁).1.snapshots).2 = some v := by
  obtain ⟨new₂, hsnap₂, hdates₂⟩ :=
    runLoop_snapshots_spec (s₁.trade_q.length + s₁.action_q.length) s₁ hn hsorted₁ hfresh₁
  have hnodup₁ : s₁.snap_dates.Nodup := snapDatesSorted_nodup hsorted₁
  have hnodupD : ((new₂.map Prod.fst) ++ (runLoop s₁).1.snap_dates).Nodup := by
    rw [← hdates₂]
    exact hnodup₁
  have hnodupF : (runLoop s₁).1.snap_dates.Nodup := hnodupD.of_append_right
  have hfreshF : ∀ x ∈ (runLoop s₁).1.snap_dates,
      dictGet? x (runLoop s₁).1.snapshots = none := by
    intro x hx
    rw [hsnap₂]
    have hx₁ : x ∈ s₁.snap_dates := by
      rw [hdates₂]
      exact List.mem_append_right _ hx
    rw [dictGet?_append_of_none _ (hfresh₁ x hx₁)]
    rw [dictGet?_eq_none_iff]
    exact fun hmem => List.disjoint_of_nodup_append hnodupD hmem hx
  rw [consume_until_none_eq _ _ _ hnodupF hfreshF]
  simp only
  rw [hsnap₂, List.append_assoc]
  exact dictGet?_append_of_some _ hfound

/-- Main snapshot lemma: when the merge loop completes without error, every
requested snapshot date `d` ends up bound, in the finalized snapshots dict,
to the per-symbol totals of the inventory obtained by processing exactly the
events dated on or before `d`. -/
theorem runLoop_snapshot_value : ∀ (n : ℕ) (s : EngineState),
    s.trade_q.length + s.action_q.length ≤ n →
    tradesSortedByDate s.trade_q →
    actionsSortedByDate s.action_q →
    snapDatesSorted s.snap_dates →
    (∀ x ∈ s.snap_dates, dictGet? x s.snapshots = none) →
    (runLoop s).2 = none →
    ∀ d ∈ s.snap_dates,
      dictGet? d (consume_until none (runLoop s).1.inventories
        (runLoop s).1.snap_dates (runLoop s).1.snapshots).2 =
        some (snapshotInventory (invAfterUpTo d s.trade_q s.action_q s.inventories)) := by
  intro n
  induction n with
  | zero =>
    intro s hlen _ _ hsorted hfresh _
    exact snapshot_value_terminal s (List.length_eq_zero.mp (by omega))
      (List.length_eq_zero.mp (by omega)) hsorted hfresh
  | succ n ih =>
    intro s hlen hts has hsorted hfresh hrun d hd
    have hnodup : s.snap_dates.Nodup := snapDatesSorted_nodup hsorted
    by_cases hgo : actionGoesFirst s.trade_q s.action_q = true
    · obtain ⟨act, acts, hA⟩ : ∃ act acts, s.action_q = act :: acts := by
        cases hq : s.action_q with
        | nil => rw [hq, actionGoesFirst_nil_action] at hgo; exact absurd hgo (by simp)
        | cons a as => exact ⟨a, as, rfl⟩
      have hpeek := peek_action hgo hA
      have hcons : consume_until (peekNextEventDate s.trade_q s.action_q)
          s.inventories s.snap_dates s.snapshots =
          (s.snap_dates.dropWhile (fun x => decide (x < act.action_date)),
           s.snapshots ++
             (s.snap_dates.takeWhile (fun x => decide (x < act.action_date))).map
               (fun x => (x, snapshotInventory s.inventories))) := by
        rw [hpeek]
        exact consume_until_some_eq _ _ _ _ hnodup hfresh
      obtain ⟨hsorted', hfresh'⟩ :=
        consume_fresh_sorted (ν := act.action_date) s.inventories hsorted hfresh
      cases herr : (apply_corporate_action act s.inventories).2 with
      | some e =>
        exfalso
        rw [runLoop_action_err hA hgo herr] at hrun
        simp at hrun
      | none =>
        rw [runLoop_action_ok hA hgo herr] at hrun ⊢
        simp only [hcons] at hrun ⊢
        by_cases hdlt : d < act.action_date
        · -- the date is captured now, against the pre-event inventory
          have hdtake : d ∈ s.snap_dates.takeWhile (fun x => decide (x < act.action_date)) :=
            mem_takeWhile_sorted hsorted hd hdlt
          have hfound : dictGet? d (s.snapshots ++
              (s.snap_dates.takeWhile (fun x => decide (x < act.action_date))).map
                (fun x => (x, snapshotInventory s.inventories))) =
              some (snapshotInventory s.inventories) := by
            rw [dictGet?_append_of_none _ (hfresh d hd)]
            exact dictGet?_mapDates_mem _ hdtake
          rw [final_lookup_of_found (by simpa using hsorted') (by simpa using hfresh')
            (by simpa using hfound) (le_refl _)]
          have htf : s.trade_q.filter (fun t => t.transaction_date ≤ d) = [] := by
            cases hq : s.trade_q with
            | nil => simp
            | cons t ts =>
              have hlt : act.action_date < t.transaction_date := by
                have hgo2 := hgo
                rw [hq, hA] at hgo2
                simpa [actionGoesFirst] using hgo2
              exact filter_trades_nil (hq ▸ hts) rfl (by omega)
          have haf : s.action_q.filter (fun a => a.action_date ≤ d) = [] :=
            filter_actions_nil has hA (by omega)
          rw [invAfterUpTo_nil_filters _ htf haf]
        · -- the date survives this step; recurse
          have hd₁ : d ∈ s.snap_dates.dropWhile (fun x => decide (x < act.action_date)) :=
            mem_dropWhile_not hd hdlt
          have has₁ : actionsSortedByDate acts := (List.pairwise_cons.mp (hA ▸ has)).2
          have hih := ih { s with
              action_q := acts,
              inventories := (apply_corporate_action act s.inventories).1,
              snap_dates := s.snap_dates.dropWhile (fun x => decide (x < act.action_date)),
              snapshots := s.snapshots ++
                (s.snap_dates.takeWhile (fun x => decide (x < act.action_date))).map
                  (fun x => (x, snapshotInventory s.inventories)) }
            (by simp [hA] at hlen ⊢; omega) hts has₁
            (by simpa using hsorted') (by simpa using hfresh') hrun d hd₁
          simp only at hih
          rw [hih]
          rw [invAfterUpTo_action_step s.inventories hts hA hgo herr (by omega)]
    · have hgo' : actionGoesFirst s.trade_q s.action_q = false := by
        revert hgo
        cases actionGoesFirst s.trade_q s.action_q <;> simp
      by_cases hT : s.trade_q = []
      · have hA : s.action_q = [] := by
          cases hq : s.action_q with
          | nil => rfl
          | cons a as =>
            rw [hT, hq] at hgo'
            simp [actionGoesFirst] at hgo'
        exact snapshot_value_terminal s hT hA hsorted hfresh d hd
      · obtain ⟨tr, trs, hT'⟩ : ∃ tr trs, s.trade_q = tr :: trs := by
          cases hq : s.trade_q with
          | nil => exact absurd hq hT
          | cons t ts => exact ⟨t, ts, rfl⟩
        have hpeek := peek_trade hgo' hT'
        have hcons : consume_until (peekNextEventDate s.trade_q s.action_q)
            s.inventories s.snap_dates s.snapshots =
            (s.snap_dates.dropWhile (fun x => decide (x < tr.transaction_date)),
             s.snapshots ++
               (s.snap_dates.takeWhile (fun x => decide (x < tr.transaction_date))).map
                 (fun x => (x, snapshotInventory s.inventories))) := by
          rw [hpeek]
          exact consume_until_some_eq _ _ _ _ hnodup hfresh
        obtain ⟨hsorted', hfresh'⟩ :=
          consume_fresh_sorted (ν := tr.transaction_date) s.inventories hsorted hfresh
        cases herr : (processTrade tr s.inventories s.records).2.2 with
        | some e =>
          exfalso
          rw [runLoop_trade_err hT' hgo' herr] at hrun
          simp at hrun
        | none =>
          rw [runLoop_trade_ok hT' hgo' herr] at hrun ⊢
          simp only [hcons] at hrun ⊢
          by_cases hdlt : d < tr.transaction_date
          · have hdtake : d ∈ s.snap_dates.takeWhile (fun x => decide (x < tr.transaction_date)) :=
              mem_takeWhile_sorted hsorted hd hdlt
            have hfound : dictGet? d (s.snapshots ++
                (s.snap_dates.takeWhile (fun x => decide (x < tr.transaction_date))).map
                  (fun x => (x, snapshotInventory s.inventories))) =
                some (snapshotInventory s.inventories) := by
              rw [dictGet?_append_of_none _ (hfresh d hd)]
              exact dictGet?_mapDates_mem _ hdtake
            rw [final_lookup_of_found (by simpa using hsorted') (by simpa using hfresh')
              (by simpa using hfound) (le_refl _)]
            have htf : s.trade_q.filter (fun t => t.transaction_date ≤ d) = [] :=
              filter_trades_nil hts hT' (by omega)
            have haf : s.action_q.filter (fun a => a.action_date ≤ d) = [] := by
              cases hq : s.action_q with
              | nil => simp
              | cons a as =>
                have hnlt : ¬ a.action_date < tr.transaction_date := by
                  have hgo2 := hgo'
                  rw [hT', hq] at hgo2
                  simpa [actionGoesFirst] using hgo2
                exact filter_actions_nil (hq ▸ has) rfl (by omega)
            rw [invAfterUpTo_nil_filters _ htf haf]
          · have hd₁ : d ∈ s.snap_dates.dropWhile (fun x => decide (x < tr.transaction_date)) :=
              mem_dropWhile_not hd hdlt
            have hts₁ : tradesSortedByDate trs := (List.pairwise_cons.mp (hT' ▸ hts)).2
            have hih := ih { s with
                trade_q := trs,
                inventories := (processTrade tr s.inventories s.records).1,
                records := (processTrade tr s.inventories s.records).2.1,
                snap_dates := s.snap_dates.dropWhile (fun x => decide (x < tr.transaction_date)),
                snapshots := s.snapshots ++
                  (s.snap_dates.takeWhile (fun x => decide (x < tr.transaction_date))).map
                    (fun x => (x, snapshotInventory s.inventories)) }
              (by simp [hT'] at hlen ⊢; omega) hts₁ has
              (by simpa using hsorted') (by simpa using hfresh') hrun d hd₁
            simp only at hih
            rw [hih]
            have hok0 : (processTrade tr s.inventories []).2.2 = none := by
              have := herr
              rw [processTrade_acc] at this
              exact this
            have hinv0 : (processTrade tr s.inventories s.records).1 =
                (processTrade tr s.inventories []).1 := by
              rw [processTrade_acc]
            rw [hinv0]
            rw [invAfterUpTo_trade_step s.inventories has hT' hgo' hok0 (by omega)]

/-! ## Rounding policy across the engine -/

theorem processTrade_wellRounded (tr : Trade) (inventories : Inventories)
    (records : List PnlRecord) (hrecs : ∀ r ∈ records, pnlWellRounded r) :
    ∀ r ∈ (processTrade tr inventories records).2.1, pnlWellRounded r := by
  by_cases hb : tr.side = "BUY"
  · rw [processTrade_buy _ _ hb]
    exact hrecs
  · by_cases hs : tr.side = "SELL"
    · rw [processTrade_sell _ _ hs]
      exact sellLoop_wellRounded _ _ _ _ _ _ hrecs
    · rw [processTrade]
      simp only [hb, hs, if_false]
      exact hrecs

theorem runLoop_wellRounded : ∀ (n : ℕ) (s : EngineState),
    s.trade_q.length + s.action_q.length ≤ n →
    (∀ r ∈ s.records, pnlWellRounded r) →
    ∀ r ∈ (runLoop s).1.records, pnlWellRounded r := by
  intro n
  induction n with
  | zero =>
    intro s hlen hrecs
    have hT : s.trade_q = [] := List.length_eq_zero.mp (by omega)
    have hA : s.action_q = [] := List.length_eq_zero.mp (by omega)
    rw [runLoop_nil hT hA]
    exact hrecs
  | succ n ih =>
    intro s hlen hrecs
    by_cases hgo : actionGoesFirst s.trade_q s.action_q = true
    · obtain ⟨act, acts, hA⟩ : ∃ act acts, s.action_q = act :: acts := by
        cases hq : s.action_q with
        | nil => rw [hq, actionGoesFirst_nil_action] at hgo; exact absurd hgo (by simp)
        | cons a as => exact ⟨a, as, rfl⟩
      cases herr : (apply_corporate_action act s.inventories).2 with
      | some e =>
        rw [runLoop_action_err hA hgo herr]
        exact hrecs
      | none =>
        rw [runLoop_action_ok hA hgo herr]
        exact ih _ (by simp [hA] at hlen ⊢; omega) hrecs
    · have hgo' : actionGoesFirst s.trade_q s.action_q = false := by
        revert hgo
        cases actionGoesFirst s.trade_q s.action_q <;> simp
      by_cases hT : s.trade_q = []
      · have hA : s.action_q = [] := by
          cases hq : s.action_q with
          | nil => rfl
          | cons a as =>
            rw [hT, hq] at hgo'
            simp [actionGoesFirst] at hgo'
        rw [runLoop_nil hT hA]
        exact hrecs
      · obtain ⟨tr, trs, hT'⟩ : ∃ tr trs, s.trade_q = tr :: trs := by
          cases hq : s.trade_q with
          | nil => exact absurd hq hT
          | cons t ts => exact ⟨t, ts, rfl⟩
        cases herr : (processTrade tr s.inventories s.records).2.2 with
        | some e =>
          rw [runLoop_trade_err hT' hgo' herr]
          exact processTrade_wellRounded tr s.inventories s.records hrecs
        | none =>
          rw [runLoop_trade_ok hT' hgo' herr]
          exact ih _ (by simp [hT'] at hlen ⊢; omega)
            (processTrade_wellRounded tr s.inventories s.records hrecs)

/-! ## apply_trades_fifo unfolding -/

theorem apply_trades_fifo_error (trade_q : List Trade) (action_q : List Action)
    (inventories : Inventories) (snapshot_dates : List Int) :
    (apply_trades_fifo trade_q action_q inventories snapshot_dates).error =
      (runLoop ⟨trade_q, action_q, inventories, [], snapshot_dates, []⟩).2 := by
  rw [apply_trades_fifo]
  cases h : (runLoop ⟨trade_q, action_q, inventories, [], snapshot_dates, []⟩).2 <;> simp [h]

theorem apply_trades_fifo_of_none {trade_q : List Trade} {action_q : List Action}
    {inventories : Inventories} {snapshot_dates : List Int}
    (h : (runLoop ⟨trade_q, action_q, inventories, [], snapshot_dates, []⟩).2 = none) :
    apply_trades_fifo trade_q action_q inventories snapshot_dates =
      ⟨(runLoop ⟨trade_q, action_q, inventories, [], snapshot_dates, []⟩).1.inventories,
       (runLoop ⟨trade_q, action_q, inventories, [], snapshot_dates, []⟩).1.records,
       (consume_until none
         (runLoop ⟨trade_q, action_q, inventories, [], snapshot_dates, []⟩).1.inventories
         (runLoop ⟨trade_q, action_q, inventories, [], snapshot_dates, []⟩).1.snap_dates
         (runLoop ⟨trade_q, action_q, inventories, [], snapshot_dates, []⟩).1.snapshots).1,
       (consume_until none
         (runLoop ⟨trade_q, action_q, inventories, [], snapshot_dates, []⟩).1.inventories
         (runLoop ⟨trade_q, action_q, inventories, [], snapshot_dates, []⟩).1.snap_dates
         (runLoop ⟨trade_q, action_q, inventories, [], snapshot_dates, []⟩).1.snapshots).2,
       none⟩ := by
  rw [apply_trades_fifo]
  simp [h]

/-! ## Dividend ledger characterization -/

theorem ledgerLoop_eq (snapshots : SnapDict) :
    ∀ (rows : List DividendRecord) (records : List LedgerEntry),
    ledgerLoop snapshots rows records =
      records ++ rows.map (fun r =>
        ⟨r.symbol, r.ex_dividend_date, r.ex_dividend_date - 1,
         (dictGet? r.symbol ((dictGet? (r.ex_dividend_date - 1) snapshots).getD [])).getD 0,
         r.dividends,
         (((dictGet? r.symbol ((dictGet? (r.ex_dividend_date - 1) snapshots).getD [])).getD 0 :
            Int) : Rat) * r.dividends⟩) := by
  intro rows
  induction rows with
  | nil =>
    intro records
    simp [ledgerLoop]
  | cons r rest ih =>
    intro records
    rw [ledgerLoop, ih]
    simp

/-! ## Zero-total omission in snapshots -/

theorem snapshotInventory_keys_subset (invs : Inventories) :
    (snapshotInventory invs).map Prod.fst ⊆ invs.map Prod.fst := by
  intro x hx
  obtain ⟨e, he, hex⟩ := List.mem_map.mp hx
  obtain ⟨p, hp, hpe⟩ := List.mem_filterMap.mp he
  by_cases hz : totalQty p.2 ≠ 0
  · rw [if_pos hz] at hpe
    have he' : e = (p.1, totalQty p.2) := by
      injection hpe with h
      exact h.symm
    subst he'
    exact List.mem_map.mpr ⟨p, hp, hex⟩
  · rw [if_neg hz] at hpe
    exact absurd hpe (by simp)

theorem snapshotInventory_omits_zero : ∀ (invs : Inventories) (sym : String),
    (invs.map Prod.fst).Nodup → totalQty (getInv invs sym) = 0 →
    dictGet? sym (snapshotInventory invs) = none := by
  intro invs
  induction invs with
  | nil =>
    intro sym _ _
    rfl
  | cons p t ih =>
    intro sym hnodup hzero
    have hnodup' : (t.map Prod.fst).Nodup := (List.nodup_cons.mp (by simpa using hnodup)).2
    by_cases hp : p.1 = sym
    · have hg : getInv (p :: t) sym = p.2 := by
        unfold getInv
        simp [dictGet?, hp]
      rw [hg] at hzero
      have hsym : sym ∉ t.map Prod.fst := by
        have h1 : p.1 ∉ t.map Prod.fst := (List.nodup_cons.mp (by simpa using hnodup)).1
        rw [hp] at h1
        exact h1
      rw [snapshotInventory, List.filterMap_cons]
      rw [if_neg (by simp [hzero])]
      rw [dictGet?_eq_none_iff]
      intro hmem
      exact hsym (snapshotInventory_keys_subset t hmem)
    · have hg : getInv (p :: t) sym = getInv t sym := by
        unfold getInv
        simp [dictGet?, hp]
      rw [hg] at hzero
      have htail := ih sym hnodup' hzero
      rw [snapshotInventory, List.filterMap_cons]
      by_cases hz : totalQty p.2 ≠ 0
      · rw [if_pos hz]
        rw [dictGet?]
        simp only [hp, if_false]
        exact (by simpa [snapshotInventory] using htail)
      · rw [if_neg hz]
        exact (by simpa [snapshotInventory] using htail)

/-! ## Evaluating `roundHalfEven` on concrete inputs -/

theorem rat_floor_intCast (n : Int) : ((n : Rat)).floor = n := by
  rw [Rat.floor, if_pos (Rat.den_intCast n), Rat.num_intCast]

theorem roundHalfEven_intCast (n : Int) : roundHalfEven ((n : Rat)) = ((n : Rat)) := by
  simp only [roundHalfEven, rat_floor_intCast, sub_self]
  norm_num

theorem roundHalfEven_eq (x : Rat) (n : Int) (h : x = (n : Rat)) :
    roundHalfEven x = (n : Rat) := by
  subst h
  exact roundHalfEven_intCast n

/-! ## Claims -/

/-- **C1**: for every SELL with sufficient inventory, lots are consumed
strictly in FIFO enqueue order, independent of price: the matching loop
succeeds and returns exactly the spec-side FIFO remainder (a partially
consumed last lot requeued at the head with its original unit cost and
acquisition date) together with one disposal record per crossed lot, in
consumption order, each carrying that lot's acquisition date and unit cost. -/
theorem sell_fifo_order (date : Int) (symbol : String) (price : Rat)
    (qty : Int) (inventory : List Lot)
    (hpos : lotsPositive inventory) (hq : 0 < qty) (hsuff : qty ≤ totalQty inventory) :
    sellLoop date symbol price qty inventory [] =
      ⟨fifoRemaining qty inventory,
       (fifoCrossed qty inventory).map (crossedRecord date symbol price), none⟩ :=
  sellLoop_fifo date symbol price hpos hsuff

/-- **C1** witness: the spec's own example — L1(qty10 @1), L2(qty10 @2),
selling 15 consumes all of L1 then 5 of L2, two records in that order, with
the remainder of L2 requeued at the head. -/
theorem sell_fifo_order_witness :
    lotsPositive [⟨10, 1, 1⟩, ⟨10, 2, 2⟩] ∧
    sellLoop 3 "A" 3 15 [⟨10, 1, 1⟩, ⟨10, 2, 2⟩] [] =
      ⟨fifoRemaining 15 [⟨10, 1, 1⟩, ⟨10, 2, 2⟩],
       (fifoCrossed 15 [⟨10, 1, 1⟩, ⟨10, 2, 2⟩]).map (crossedRecord 3 "A" 3), none⟩ ∧
    fifoRemaining 15 [⟨10, 1, 1⟩, ⟨10, 2, 2⟩] = [⟨5, 2, 2⟩] ∧
    (fifoCrossed 15 [⟨10, 1, 1⟩, ⟨10, 2, 2⟩]).map (crossedRecord 3 "A" 3) =
      [⟨3, "A", 10, 3, 1, 1, 20⟩, ⟨3, "A", 5, 3, 2, 2, 5⟩] := by
  refine ⟨?_, ?_, by decide, ?_⟩
  · intro lot hl
    fin_cases hl <;> decide
  · exact sell_fifo_order 3 "A" 3 15 [⟨10, 1, 1⟩, ⟨10, 2, 2⟩]
      (by intro lot hl; fin_cases hl <;> decide) (by decide) (by decide)
  · have hc : fifoCrossed 15 [⟨10, 1, 1⟩, ⟨10, 2, 2⟩] = [(⟨10, 1, 1⟩, 10), (⟨10, 2, 2⟩, 5)] := by
      decide
    rw [hc]
    simp only [List.map_cons, List.map_nil, crossedRecord]
    rw [roundHalfEven_eq _ 20 (by norm_num), roundHalfEven_eq _ 5 (by norm_num)]
    norm_num

/-- **C2**: the merge loop dispatches the pending corporate action exactly
when its date is strictly earlier than the next pending trade's date, and
also whenever no trades remain; consequently a BUY and a SPLIT on the same
day run trade-first, so the bought shares are split too: BUY 10@10 and
SPLIT 1→2 on the same day end with one lot (qty 20 @5). -/
theorem merge_tie_break :
    (∀ (t : Trade) (ts : List Trade) (a : Action) (acts : List Action),
      actionGoesFirst (t :: ts) (a :: acts) = true ↔ a.action_date < t.transaction_date) ∧
    (∀ (a : Action) (acts : List Action), actionGoesFirst [] (a :: acts) = true) ∧
    apply_trades_fifo [⟨10, "A", "BUY", 10, 10⟩] [⟨10, "A", "SPLIT", 1, 2⟩] [] [] =
      ⟨[("A", [⟨20, 5, 10⟩])], [], [], [], none⟩ := by
  refine ⟨?_, ?_, ?_⟩
  · intro t ts a acts
    simp [actionGoesFirst]
  · intro a acts
    rfl
  · have hinv : (apply_corporate_action ⟨10, "A", "SPLIT", 1, 2⟩
        [("A", [⟨10, 10, 10⟩])]).1 = [("A", [⟨20, 5, 10⟩])] := by
      rw [apply_corporate_action_split _ rfl (by decide) (by decide) (by decide)]
      show [("A", [splitLot 2 ⟨10, 10, 10⟩])] = [("A", [⟨20, 5, 10⟩])]
      simp only [splitLot]
      norm_num
    have hrun : runLoop ⟨[⟨10, "A", "BUY", 10, 10⟩], [⟨10, "A", "SPLIT", 1, 2⟩],
        [], [], [], []⟩ = (⟨[], [], [("A", [⟨20, 5, 10⟩])], [], [], []⟩, none) := by
      rw [runLoop_trade_ok rfl (by decide) (by decide)]
      rw [runLoop_action_ok rfl (by decide) (by dsimp only; decide)]
      rw [runLoop_nil rfl rfl]
      dsimp only
      rw [show (processTrade ⟨10, "A", "BUY", 10, 10⟩ [] []).1 = [("A", [⟨10, 10, 10⟩])]
        from by decide]
      rw [hinv]
      decide
    rw [apply_trades_fifo_of_none (by rw [hrun])]
    rw [hrun]
    decide

/-- **C4**: a valid SPLIT with multiplier `k = ratio_to / ratio_from` succeeds
and replaces each lot of the symbol's queue in place by
`(qty × k, price / k)`, in the same number and order (a map over the queue);
each lot's cost basis `qty × price` is preserved exactly in the rational
model; other symbols' queues are untouched. -/
theorem split_rescales_lots (a : Action) (inventories : Inventories)
    (htype : a.action_type = "SPLIT") (hrf : 0 < a.ratio_from) (hrt : 0 < a.ratio_to)
    (hmul : a.ratio_to % a.ratio_from = 0) :
    (apply_corporate_action a inventories).2 = none ∧
    getInv (apply_corporate_action a inventories).1 a.symbol =
      (getInv inventories a.symbol).map (splitLot (a.ratio_to / a.ratio_from)) ∧
    (getInv (apply_corporate_action a inventories).1 a.symbol).length =
      (getInv inventories a.symbol).length ∧
    (∀ lot : Lot,
      (splitLot (a.ratio_to / a.ratio_from) lot).qty = lot.qty * (a.ratio_to / a.ratio_from) ∧
      (splitLot (a.ratio_to / a.ratio_from) lot).price =
        lot.price / ((a.ratio_to / a.ratio_from : Int) : Rat) ∧
      ((splitLot (a.ratio_to / a.ratio_from) lot).qty : Rat) *
          (splitLot (a.ratio_to / a.ratio_from) lot).price =
        (lot.qty : Rat) * lot.price) ∧
    (∀ sym, sym ≠ a.symbol →
      getInv (apply_corporate_action a inventories).1 sym = getInv inventories sym) := by
  have hk : 0 < a.ratio_to / a.ratio_from := split_multiplier_pos hrf hrt hmul
  have hk' : ((a.ratio_to / a.ratio_from : Int) : Rat) ≠ 0 := by
    exact_mod_cast ne_of_gt hk
  rw [apply_corporate_action_split _ htype hrf hrt hmul]
  refine ⟨rfl, ?_, ?_, ?_, ?_⟩
  · unfold getInv
    rw [dictGet?_dictSet_self]
    rfl
  · unfold getInv
    rw [dictGet?_dictSet_self]
    simp
  · intro lot
    refine ⟨rfl, rfl, ?_⟩
    show ((lot.qty * (a.ratio_to / a.ratio_from) : Int) : Rat) *
        (lot.price / ((a.ratio_to / a.ratio_from : Int) : Rat)) = (lot.qty : Rat) * lot.price
    push_cast
    field_simp
    ring
  · intro sym hsym
    unfold getInv
    rw [dictGet?_dictSet_ne _ _ hsym]
    exact getInv_setdefault inventories a.symbol sym

/-- **C4** witness: a lot (qty10 @10) under SPLIT 1→2 becomes (qty20 @5);
total cost 100 is unchanged. -/
theorem split_rescales_lots_witness :
    ((⟨7, "A", "SPLIT", 1, 2⟩ : Action).action_type = "SPLIT" ∧
      (0:Int) < 1 ∧ (0:Int) < 2 ∧ (2:Int) % 1 = 0) ∧
    (apply_corporate_action ⟨7, "A", "SPLIT", 1, 2⟩ [("A", [⟨10, 10, 0⟩])]).2 = none ∧
    getInv (apply_corporate_action ⟨7, "A", "SPLIT", 1, 2⟩ [("A", [⟨10, 10, 0⟩])]).1 "A" =
      [⟨20, 5, 0⟩] := by
  have h := split_rescales_lots ⟨7, "A", "SPLIT", 1, 2⟩ [("A", [⟨10, 10, 0⟩])]
    rfl (by decide) (by decide) (by decide)
  refine ⟨by decide, h.1, ?_⟩
  rw [h.2.1]
  show [splitLot 2 ⟨10, 10, 0⟩] = [⟨20, 5, 0⟩]
  simp only [splitLot]
  norm_num

/-- Keys of the finalized snapshots dict: the snapshots present before the
loop followed by every requested date, in order. -/
theorem finalize_keys (s₁ : EngineState)
    (hsorted₁ : snapDatesSorted s₁.snap_dates)
    (hfresh₁ : ∀ x ∈ s₁.snap_dates, dictGet? x s₁.snapshots = none) :
    (consume_until none (runLoop s₁).1.inventories (runLoop s₁).1.snap_dates
      (runLoop s₁).1.snapshots).2.map Prod.fst =
      s₁.snapshots.map Prod.fst ++ s₁.snap_dates := by
  obtain ⟨new₂, hsnap₂, hdates₂⟩ :=
    runLoop_snapshots_spec (s₁.trade_q.length + s₁.action_q.length) s₁ (le_refl _)
      hsorted₁ hfresh₁
  have hnodup₁ : s₁.snap_dates.Nodup := snapDatesSorted_nodup hsorted₁
  have hnodupD : ((new₂.map Prod.fst) ++ (runLoop s₁).1.snap_dates).Nodup := by
    rw [← hdates₂]
    exact hnodup₁
  have hnodupF : (runLoop s₁).1.snap_dates.Nodup := hnodupD.of_append_right
  have hfreshF : ∀ x ∈ (runLoop s₁).1.snap_dates,
      dictGet? x (runLoop s₁).1.snapshots = none := by
    intro x hx
    rw [hsnap₂]
    have hx₁ : x ∈ s₁.snap_dates := by
      rw [hdates₂]
      exact List.mem_append_right _ hx
    rw [dictGet?_append_of_none _ (hfresh₁ x hx₁)]
    rw [dictGet?_eq_none_iff]
    exact fun hmem => List.disjoint_of_nodup_append hnodupD hmem hx
  rw [consume_until_none_eq _ _ _ hnodupF hfreshF]
  simp only
  rw [hsnap₂]
  simp only [List.map_append, List.map_map, Function.comp_def, List.append_assoc]
  congr 1
  rw [hdates₂]
  congr 1
  exact List.map_id _

/-- **C3** counterexample: a trade dated exactly on a snapshot date is
included in that date's snapshot.  With one BUY of 10 dated 5 and snapshot
date 5, the captured value is `{A: 10}`, while the inventory immediately
before the first event dated on or after 5 — the claim's words — is empty. -/
theorem snapshot_same_day_counterexample :
    dictGet? 5 (apply_trades_fifo [⟨5, "A", "BUY", 10, 1⟩] [] [] [5]).snapshots =
      some [("A", 10)] ∧
    snapshotInventory (invBeforeDate 5 [⟨5, "A", "BUY", 10, 1⟩] [] []) = [] ∧
    some ([("A", 10)] : Snap) ≠ some ([] : Snap) := by
  have hrun : runLoop ⟨[⟨5, "A", "BUY", 10, 1⟩], [], [], [], [5], []⟩ =
      (⟨[], [], [("A", [⟨10, 1, 5⟩])], [], [5], []⟩, none) := by
    rw [runLoop_trade_ok rfl (by decide) (by decide), runLoop_nil rfl rfl]
    decide
  refine ⟨?_, ?_, by decide⟩
  · rw [apply_trades_fifo_of_none (by rw [hrun])]
    simp only [hrun]
    decide
  · have h : invBeforeDate 5 [⟨5, "A", "BUY", 10, 1⟩] [] [] = [] := by
      unfold invBeforeDate
      rw [runLoop_nil (by decide) (by decide)]
    rw [h]
    rfl

/-- **C3** (amended): each requested snapshot date is captured exactly once
(the finalized dict's keys are exactly the requested dates, in order), and
the captured value for date `d` is the per-symbol total of the inventory
**after** processing every event dated on or before `d` — i.e. immediately
before the first event dated strictly after `d`, not "on or after" —
omitting symbols whose total is exactly zero. -/
theorem snapshot_capture_spec (trade_q : List Trade) (action_q : List Action)
    (inventories : Inventories) (snapshot_dates : List Int)
    (hts : tradesSortedByDate trade_q) (has : actionsSortedByDate action_q)
    (hds : snapDatesSorted snapshot_dates)
    (hok : (apply_trades_fifo trade_q action_q inventories snapshot_dates).error = none) :
    (apply_trades_fifo trade_q action_q inventories snapshot_dates).snapshots.map Prod.fst =
      snapshot_dates ∧
    (∀ d ∈ snapshot_dates,
      dictGet? d (apply_trades_fifo trade_q action_q inventories snapshot_dates).snapshots =
        some (snapshotInventory (invAfterUpTo d trade_q action_q inventories))) ∧
    (∀ (invs : Inventories) (sym : String), (invs.map Prod.fst).Nodup →
      totalQty (getInv invs sym) = 0 →
      dictGet? sym (snapshotInventory invs) = none) := by
  have hrun : (runLoop ⟨trade_q, action_q, inventories, [], snapshot_dates, []⟩).2 = none := by
    rw [← apply_trades_fifo_error]
    exact hok
  rw [apply_trades_fifo_of_none hrun]
  refine ⟨?_, ?_, snapshotInventory_omits_zero⟩
  · exact finalize_keys ⟨trade_q, action_q, inventories, [], snapshot_dates, []⟩
      hds (fun x _ => rfl)
  · intro d hd
    exact runLoop_snapshot_value (trade_q.length + action_q.length)
      ⟨trade_q, action_q, inventories, [], snapshot_dates, []⟩ (le_refl _)
      hts has hds (fun x _ => rfl) hrun d hd

/-- **C3** witness: one BUY of 10 dated 5 with snapshot date 5 — the
snapshot keys are `[5]` and the captured value is the inventory after the
same-day trade. -/
theorem snapshot_capture_spec_witness :
    (apply_trades_fifo [⟨5, "A", "BUY", 10, 1⟩] [] [] [5]).snapshots.map Prod.fst = [5] ∧
    dictGet? 5 (apply_trades_fifo [⟨5, "A", "BUY", 10, 1⟩] [] [] [5]).snapshots =
      some (snapshotInventory (invAfterUpTo 5 [⟨5, "A", "BUY", 10, 1⟩] [] [])) := by
  have h := snapshot_capture_spec [⟨5, "A", "BUY", 10, 1⟩] [] [] [5]
    (by simp [tradesSortedByDate]) (by simp [actionsSortedByDate])
    (by simp [snapDatesSorted])
    (by rw [apply_trades_fifo_error, runLoop_trade_ok rfl (by decide) (by decide),
          runLoop_nil rfl rfl])
  exact ⟨h.1, h.2.1 5 (by decide)⟩

/-- **C5** counterexample: a SELL of 5 against a single lot of 3 raises
`InsufficientInventory`, but the queue is *not* restored to its pre-SELL
state: the popped lot is gone (and a partial disposal record was accumulated
before the raise). -/
theorem insufficient_sell_not_rolled_back :
    (sellLoop 3 "A" 2 5 [⟨3, 1, 0⟩] []).error = some .insufficientInventory ∧
    (sellLoop 3 "A" 2 5 [⟨3, 1, 0⟩] []).inventory = [] ∧
    (sellLoop 3 "A" 2 5 [⟨3, 1, 0⟩] []).inventory ≠ [⟨3, 1, 0⟩] ∧
    (sellLoop 3 "A" 2 5 [⟨3, 1, 0⟩] []).records = [⟨3, "A", 3, 2, 0, 1, 3⟩] := by
  have h := @sellLoop_insufficient 3 "A" 2 5 [⟨3, 1, 0⟩] []
    (by intro lot hl; fin_cases hl <;> decide) (by decide)
  rw [h]
  refine ⟨rfl, rfl, by decide, ?_⟩
  show [] ++ [crossedRecord 3 "A" 2 (⟨3, 1, 0⟩, (⟨3, 1, 0⟩ : Lot).qty)] =
    [⟨3, "A", 3, 2, 0, 1, 3⟩]
  simp only [List.nil_append, crossedRecord]
  rw [roundHalfEven_eq _ 3 (by norm_num)]
  norm_num

/-- **C5** (amended): the matching loop raises `InsufficientInventory`
exactly when the symbol's queue empties before the requested quantity is
matched (equivalently, when the requested quantity exceeds the queue's
total); the exception aborts the run, so the partially accumulated records
are never returned, but the in-place mutation is **not** rolled back: on the
error the queue is left fully drained, one full-consumption record per
original lot having been accumulated locally (with zero lots, nothing is
consumed and no record exists). -/
theorem insufficient_sell_spec (date : Int) (symbol : String) (price : Rat)
    (qty : Int) (inventory : List Lot) (records : List PnlRecord)
    (hpos : lotsPositive inventory) :
    ((sellLoop date symbol price qty inventory records).error.isSome ↔
      totalQty inventory < qty) ∧
    (totalQty inventory < qty →
      sellLoop date symbol price qty inventory records =
        ⟨[],
         records ++ inventory.map (fun lot => crossedRecord date symbol price (lot, lot.qty)),
         some .insufficientInventory⟩) :=
  ⟨sellLoop_error_iff date symbol price qty inventory records hpos,
   fun hlt => sellLoop_insufficient date symbol price records hpos hlt⟩

/-- **C5** witness: the spec's example — selling 5 of a symbol with zero lots
raises the error and leaves no disposal records. -/
theorem insufficient_sell_spec_witness :
    lotsPositive [] ∧
    ((sellLoop 3 "A" 2 5 [] []).error.isSome ↔ totalQty [] < 5) ∧
    (totalQty [] < 5 →
      sellLoop 3 "A" 2 5 [] [] =
        ⟨[], [] ++ ([] : List Lot).map (fun lot => crossedRecord 3 "A" 2 (lot, lot.qty)),
         some .insufficientInventory⟩) :=
  ⟨by simp [lotsPositive],
   (insufficient_sell_spec 3 "A" 2 5 [] [] (by simp [lotsPositive])).1,
   (insufficient_sell_spec 3 "A" 2 5 [] [] (by simp [lotsPositive])).2⟩

/-- **C6**: the dividend ledger builder maps each input row, in input order,
to exactly one entry with `snapshot_date = ex_dividend_date − 1`,
`eligible_qty` looked up in the snapshot map with default 0 when the date or
the symbol is absent, and `amount = eligible_qty × per-share dividend`; it is
a total function (no error) and performs no cross-record aggregation. -/
theorem dividend_ledger_per_row (rows : List DividendRecord) (snapshots : SnapDict) :
    compute_dividend_ledger rows snapshots = rows.map (fun r =>
      ⟨r.symbol, r.ex_dividend_date, r.ex_dividend_date - 1,
       (dictGet? r.symbol ((dictGet? (r.ex_dividend_date - 1) snapshots).getD [])).getD 0,
       r.dividends,
       (((dictGet? r.symbol ((dictGet? (r.ex_dividend_date - 1) snapshots).getD [])).getD 0 :
          Int) : Rat) * r.dividends⟩) := by
  rw [compute_dividend_ledger, ledgerLoop_eq]
  simp

/-- **C7**: applying a corporate action fails with `InvalidSplitRatio`
exactly for a SPLIT whose ratios are non-positive or whose `ratio_to` is not
an integer multiple of `ratio_from`, fails with `UnsupportedAction` exactly
for any non-SPLIT type, and in both failure cases no lot in any queue is
modified (only an empty binding may be created by the `setdefault`). -/
theorem corporate_action_error_spec (a : Action) (inventories : Inventories) :
    ((apply_corporate_action a inventories).2 = some .invalidSplitRatio ↔
      a.action_type = "SPLIT" ∧
        (a.ratio_from ≤ 0 ∨ a.ratio_to ≤ 0 ∨ a.ratio_to % a.ratio_from ≠ 0)) ∧
    ((apply_corporate_action a inventories).2 = some .unsupportedAction ↔
      a.action_type ≠ "SPLIT") ∧
    (∀ e, (apply_corporate_action a inventories).2 = some e →
      ∀ sym, getInv (apply_corporate_action a inventories).1 sym = getInv inventories sym) := by
  by_cases htype : a.action_type = "SPLIT"
  · by_cases hbad : a.ratio_from ≤ 0 ∨ a.ratio_to ≤ 0 ∨ a.ratio_to % a.ratio_from ≠ 0
    · rw [apply_corporate_action_invalid _ htype hbad]
      refine ⟨⟨fun _ => ⟨htype, hbad⟩, fun _ => rfl⟩,
        ⟨fun h => absurd h (by simp), fun h => absurd htype h⟩, ?_⟩
      intro e _ sym
      exact getInv_setdefault inventories a.symbol sym
    · push_neg at hbad
      obtain ⟨h1, h2, h3⟩ := hbad
      rw [apply_corporate_action_split _ htype (by omega) (by omega) h3]
      refine ⟨⟨fun h => absurd h (by simp), ?_⟩,
        ⟨fun h => absurd h (by simp), fun h => absurd htype h⟩, ?_⟩
      · rintro ⟨-, hd⟩
        rcases hd with h | h | h
        · omega
        · omega
        · exact absurd h3 h
      · intro e he
        exact Option.noConfusion he
  · rw [apply_corporate_action_unsupported _ htype]
    refine ⟨⟨fun h => absurd h (by simp), fun hc => absurd hc.1 htype⟩,
      ⟨fun _ => htype, fun _ => rfl⟩, ?_⟩
    intro e _ sym
    exact getInv_setdefault inventories a.symbol sym

/-- **C7** witness: a non-SPLIT action type fails with `UnsupportedAction`
and modifies no queue. -/
theorem corporate_action_error_spec_witness :
    ((apply_corporate_action ⟨4, "A", "MERGE", 1, 2⟩ [("A", [⟨3, 1, 0⟩])]).2 =
        some .unsupportedAction ↔ ("MERGE" : String) ≠ "SPLIT") ∧
    (∀ e, (apply_corporate_action ⟨4, "A", "MERGE", 1, 2⟩ [("A", [⟨3, 1, 0⟩])]).2 = some e →
      ∀ sym, getInv (apply_corporate_action ⟨4, "A", "MERGE", 1, 2⟩ [("A", [⟨3, 1, 0⟩])]).1 sym =
        getInv [("A", [⟨3, 1, 0⟩])] sym) :=
  ⟨(corporate_action_error_spec ⟨4, "A", "MERGE", 1, 2⟩ [("A", [⟨3, 1, 0⟩])]).2.1,
   (corporate_action_error_spec ⟨4, "A", "MERGE", 1, 2⟩ [("A", [⟨3, 1, 0⟩])]).2.2⟩

/-- **C8**: every realized-gain figure the engine emits — whatever mix of
trades and actions produced it — is computed under the single fixed policy
`round(sell_qty × (sell_price − buy_price), 0)`, i.e. rounding to a whole
unit with ties to even, from the record's own quantity, sell price and lot
unit cost; no record escapes the rounding. -/
theorem realized_gain_rounding (trade_q : List Trade) (action_q : List Action)
    (inventories : Inventories) (snapshot_dates : List Int) :
    ∀ r ∈ (apply_trades_fifo trade_q action_q inventories snapshot_dates).records,
      r.realized_pnl = roundHalfEven ((r.sell_qty : Rat) * (r.sell_price - r.buy_price)) := by
  intro r hr
  have hrecs : (apply_trades_fifo trade_q action_q inventories snapshot_dates).records =
      (runLoop ⟨trade_q, action_q, inventories, [], snapshot_dates, []⟩).1.records := by
    rw [apply_trades_fifo]
    cases h : (runLoop ⟨trade_q, action_q, inventories, [], snapshot_dates, []⟩).2 <;> simp [h]
  rw [hrecs] at hr
  exact runLoop_wellRounded (trade_q.length + action_q.length)
    ⟨trade_q, action_q, inventories, [], snapshot_dates, []⟩ (le_refl _)
    (fun r hr => absurd hr (List.not_mem_nil r)) r hr

/-- **C8** witness: selling 4 of a lot bought at 1 for price 2 emits the
record with `realized_pnl = round(4 × (2 − 1), 0) = 4`. -/
theorem realized_gain_rounding_witness :
    (⟨2, "A", 4, 2, 1, 1, 4⟩ : PnlRecord) ∈
      (apply_trades_fifo [⟨2, "A", "SELL", 4, 2⟩] [] [("A", [⟨10, 1, 1⟩])] []).records ∧
    (⟨2, "A", 4, 2, 1, 1, 4⟩ : PnlRecord).realized_pnl =
      roundHalfEven (((⟨2, "A", 4, 2, 1, 1, 4⟩ : PnlRecord).sell_qty : Rat) *
        ((⟨2, "A", 4, 2, 1, 1, 4⟩ : PnlRecord).sell_price -
         (⟨2, "A", 4, 2, 1, 1, 4⟩ : PnlRecord).buy_price)) := by
  have hsell : sellLoop 2 "A" 2 4 (getInv [("A", [⟨10, 1, 1⟩])] "A") [] =
      ⟨[⟨6, 1, 1⟩], [⟨2, "A", 4, 2, 1, 1, 4⟩], none⟩ := by
    show sellLoop 2 "A" 2 4 [⟨10, 1, 1⟩] [] = ⟨[⟨6, 1, 1⟩], [⟨2, "A", 4, 2, 1, 1, 4⟩], none⟩
    rw [sellLoop_fifo 2 "A" 2 (by intro lot hl; fin_cases hl <;> decide) (by decide)]
    have hc : fifoCrossed 4 [⟨10, 1, 1⟩] = [(⟨10, 1, 1⟩, 4)] := by decide
    have hrem : fifoRemaining 4 [⟨10, 1, 1⟩] = [⟨6, 1, 1⟩] := by decide
    rw [hc, hrem]
    simp only [List.map_cons, List.map_nil, crossedRecord]
    rw [roundHalfEven_eq _ 4 (by norm_num)]
    norm_num
  have hpt : processTrade ⟨2, "A", "SELL", 4, 2⟩ [("A", [⟨10, 1, 1⟩])] [] =
      ([("A", [⟨6, 1, 1⟩])], [⟨2, "A", 4, 2, 1, 1, 4⟩], none) := by
    rw [processTrade_sell _ _ rfl]
    dsimp only
    rw [hsell]
    decide
  have hrun : runLoop ⟨[⟨2, "A", "SELL", 4, 2⟩], [], [("A", [⟨10, 1, 1⟩])], [], [], []⟩ =
      (⟨[], [], [("A", [⟨6, 1, 1⟩])], [⟨2, "A", 4, 2, 1, 1, 4⟩], [], []⟩, none) := by
    rw [runLoop_trade_ok rfl (by decide) (by dsimp only; rw [hpt])]
    rw [runLoop_nil rfl rfl]
    dsimp only
    rw [hpt]
    decide
  have hmem : (⟨2, "A", 4, 2, 1, 1, 4⟩ : PnlRecord) ∈
      (apply_trades_fifo [⟨2, "A", "SELL", 4, 2⟩] [] [("A", [⟨10, 1, 1⟩])] []).records := by
    rw [apply_trades_fifo_of_none (by rw [hrun])]
    simp only [hrun]
    decide
  exact ⟨hmem,
    realized_gain_rounding [⟨2, "A", "SELL", 4, 2⟩] [] [("A", [⟨10, 1, 1⟩])] [] _ hmem⟩

/-- **C9**: under the preconditions (positive trade quantities, positive
opening lots), every mutation of the engine preserves the inventory
invariant: totals are non-negative and no zero- or negative-quantity lot
persists — after every BUY and SELL (`processTrade`), after every SPLIT
(`apply_corporate_action`), and across any whole run of the merge loop. -/
theorem inventory_invariant :
    (∀ lots, lotsPositive lots → 0 ≤ totalQty lots) ∧
    (∀ (invs : Inventories) (sym : String), invsPositive invs →
      0 ≤ totalQty (getInv invs sym)) ∧
    (∀ (tr : Trade) (invs : Inventories) (recs : List PnlRecord),
      0 < tr.qty → invsPositive invs → (processTrade tr invs recs).2.2 = none →
      invsPositive (processTrade tr invs recs).1) ∧
    (∀ (a : Action) (invs : Inventories), invsPositive invs →
      (apply_corporate_action a invs).2 = none →
      invsPositive (apply_corporate_action a invs).1) ∧
    (∀ (s : EngineState), tradesPositive s.trade_q → invsPositive s.inventories →
      (runLoop s).2 = none → invsPositive (runLoop s).1.inventories) := by
  refine ⟨?_, ?_, ?_, ?_, ?_⟩
  · exact fun lots h => totalQty_nonneg h
  · exact fun invs sym h => totalQty_nonneg (lotsPositive_getInv h sym)
  · exact fun tr invs recs hq hinv _ => processTrade_invsPositive tr invs recs hq hinv
  · exact fun a invs hinv _ => apply_corporate_action_invsPositive a invs hinv
  · exact fun s htr hinv _ =>
      runLoop_invsPositive (s.trade_q.length + s.action_q.length) s (le_refl _) htr hinv

/-- **C9** witness: a BUY of 5 into an empty book leaves only
positive-quantity lots. -/
theorem inventory_invariant_witness :
    (0:Int) < (⟨1, "A", "BUY", 5, 2⟩ : Trade).qty ∧
    invsPositive ([] : Inventories) ∧
    (processTrade ⟨1, "A", "BUY", 5, 2⟩ [] []).2.2 = none ∧
    invsPositive (processTrade ⟨1, "A", "BUY", 5, 2⟩ [] []).1 :=
  ⟨by decide, by simp [invsPositive], by decide,
   inventory_invariant.2.2.1 ⟨1, "A", "BUY", 5, 2⟩ [] [] (by decide)
     (by simp [invsPositive]) (by decide)⟩

/-- **C10**: a valid SPLIT on a symbol whose queue is empty or absent
succeeds, changes no queue's contents, and leaves an empty queue binding for
the symbol in the inventory mapping as a side effect of the `setdefault`. -/
theorem split_on_empty_symbol (a : Action) (inventories : Inventories)
    (htype : a.action_type = "SPLIT") (hrf : 0 < a.ratio_from) (hrt : 0 < a.ratio_to)
    (hmul : a.ratio_to % a.ratio_from = 0) (hempty : getInv inventories a.symbol = []) :
    (apply_corporate_action a inventories).2 = none ∧
    (∀ sym, getInv (apply_corporate_action a inventories).1 sym = getInv inventories sym) ∧
    dictGet? a.symbol (apply_corporate_action a inventories).1 = some [] := by
  rw [apply_corporate_action_split _ htype hrf hrt hmul]
  refine ⟨rfl, ?_, ?_⟩
  · intro sym
    by_cases hsym : sym = a.symbol
    · subst hsym
      unfold getInv
      rw [dictGet?_dictSet_self]
      have hempty' : (dictGet? a.symbol inventories).getD [] = [] := hempty
      rw [hempty']
      simp
    · unfold getInv
      rw [dictGet?_dictSet_ne _ _ hsym]
      exact getInv_setdefault inventories a.symbol sym
  · rw [hempty]
    simp [dictGet?_dictSet_self]

/-- **C10** witness: SPLIT 1→3 on a never-held symbol succeeds, leaves the
other symbol's lots alone, and creates an empty binding for the symbol. -/
theorem split_on_empty_symbol_witness :
    getInv [("A", [⟨2, 1, 0⟩])] "B" = [] ∧
    (apply_corporate_action ⟨9, "B", "SPLIT", 1, 3⟩ [("A", [⟨2, 1, 0⟩])]).2 = none ∧
    (∀ sym, getInv (apply_corporate_action ⟨9, "B", "SPLIT", 1, 3⟩ [("A", [⟨2, 1, 0⟩])]).1 sym =
      getInv [("A", [⟨2, 1, 0⟩])] sym) ∧
    dictGet? "B" (apply_corporate_action ⟨9, "B", "SPLIT", 1, 3⟩ [("A", [⟨2, 1, 0⟩])]).1 =
      some [] := by
  have h := split_on_empty_symbol ⟨9, "B", "SPLIT", 1, 3⟩ [("A", [⟨2, 1, 0⟩])]
    rfl (by decide) (by decide) (by decide) (by decide)
  exact ⟨by decide, h.1, h.2.1, h.2.2⟩

end InvestmentTracker
